import Mathlib

set_option maxHeartbeats 2000000

/-!
Shallow embedding of the cola text CRDT core (`src/replica.rs`, `src/anchor.rs`,
`src/gtree.rs`, `src/encoded_replica.rs`).

Machine integers (`u64`) are modelled as `Nat`: the code never relies on
wrap-around (clocks and lengths only grow by small increments), so no explicit
`% 2^64` is needed for the properties below.  Stateful Rust methods become
functions returning the updated value; methods that can panic return `Option`
(`none` = panic).

Components of the crate that are not part of `src/` (the run tree, the version
maps, the backlog, the operation types and the binary encoding helpers) are
modelled from the specification; each such definition carries a doc comment
starting with `Modelled from the spec:`.
-/
namespace Cola

/- The Rust aliases `ReplicaId`, `Length`, `LamportTs`, `RunTs` and
`DeletionTs` are all 64-bit unsigned integers; they are modelled as `Nat`
throughout. -/

/-- The Lamport clock of a replica (`LamportClock` in `replica.rs`). -/
structure LamportClock where
  ts : Nat
deriving DecidableEq, Repr

def LamportClock.new : LamportClock := ⟨0⟩

/-- Mirrors `LamportClock::highest`: `self.0.saturating_sub(1)` (`Nat` subtraction is
saturating). -/
def LamportClock.highest (c : LamportClock) : Nat := c.ts - 1

/-- Mirrors `LamportClock::merge`: `if remote_ts >= self.0 { self.0 = remote_ts + 1 }`. -/
def LamportClock.merge (c : LamportClock) (remote : Nat) : LamportClock :=
  if remote ≥ c.ts then ⟨remote + 1⟩ else c

/-- Mirrors `LamportClock::next`: returns the current value and increments. -/
def LamportClock.next (c : LamportClock) : Nat × LamportClock :=
  (c.ts, ⟨c.ts + 1⟩)

/-- The run clock of a replica (`RunClock` in `replica.rs`). -/
structure RunClock where
  ts : Nat
deriving DecidableEq, Repr

def RunClock.new : RunClock := ⟨0⟩

/-- Mirrors `RunClock::last`: `self.0.saturating_sub(1)`. -/
def RunClock.last (c : RunClock) : Nat := c.ts - 1

/-- Mirrors `RunClock::next`: returns the current value and increments. -/
def RunClock.next (c : RunClock) : Nat × RunClock :=
  (c.ts, ⟨c.ts + 1⟩)

/-- Mirrors `InnerAnchor` from `anchor.rs`: `(replica_id, contained_in, offset)`. -/
structure InnerAnchor where
  replica_id : Nat
  contained_in : Nat
  offset : Nat
deriving DecidableEq, Repr

/-- Mirrors `InnerAnchor::zero`: the document-start sentinel. -/
def InnerAnchor.zero : InnerAnchor := ⟨0, 0, 0⟩

/-- Mirrors `InnerAnchor::is_zero`: `self.replica_id == 0`. -/
def InnerAnchor.is_zero (a : InnerAnchor) : Prop := a.replica_id = 0

instance (a : InnerAnchor) : Decidable a.is_zero := by
  unfold InnerAnchor.is_zero; infer_instance

/-- Mirrors `AnchorBias` from `anchor.rs`. -/
inductive AnchorBias where
  | Left
  | Right
deriving DecidableEq, Repr

/-- Mirrors `Anchor` from `anchor.rs`: an `InnerAnchor` plus a bias. -/
structure Anchor where
  inner : InnerAnchor
  bias : AnchorBias
deriving DecidableEq, Repr

def Anchor.start_of_document : Anchor := ⟨InnerAnchor.zero, AnchorBias.Left⟩

def Anchor.end_of_document : Anchor := ⟨InnerAnchor.zero, AnchorBias.Right⟩

/-- Modelled from the spec: the `Text` value type (`text.rs` is not under
`src/`): a character interval `(inserter, [lo, hi))` identifying `hi - lo`
characters of one replica. -/
structure Text where
  inserter_id : Nat
  lo : Nat
  hi : Nat
deriving DecidableEq, Repr

def Text.len (t : Text) : Nat := t.hi - t.lo

/-- Modelled from the spec: the `EditRun` leaf type (`run_tree.rs` is not
under `src/`): a contiguous run of characters inserted by one replica, with
its run timestamp, Lamport timestamp, parent anchor and visibility flag. -/
structure EditRun where
  text : Text
  run_ts : Nat
  lamport_ts : Nat
  parent_anchor : InnerAnchor
  is_visible : Bool
deriving DecidableEq, Repr

/-- The visible length of a run: `hi - lo` when visible, `0` for a tombstone. -/
def EditRun.visibleLen (r : EditRun) : Nat :=
  if r.is_visible then r.text.hi - r.text.lo else 0

/-- Modelled from the spec: the run tree, represented by its in-order sequence
of edit runs (the Gtree is only an efficient container for this sequence). -/
structure RunTree where
  runs : List EditRun
deriving DecidableEq, Repr

/-- Total visible length of the document. -/
def RunTree.len (t : RunTree) : Nat :=
  (t.runs.map EditRun.visibleLen).sum

/-- The replica owning the visible character at a given offset, together with
the character's timestamp, if the offset is in bounds. -/
def runCharAt : List EditRun → Nat → Option (Nat × Nat)
  | [], _ => none
  | r :: rest, o =>
    if o < r.visibleLen then some (r.text.inserter_id, r.text.lo + o)
    else runCharAt rest (o - r.visibleLen)

def RunTree.charAt (t : RunTree) (o : Nat) : Option (Nat × Nat) :=
  runCharAt t.runs o

/-- Modelled from the spec: the `VersionMap`/`DeletionMap` shape (the file
`version_map.rs` is not under `src/`): one distinguished "this replica" entry
plus an association list; lookups on unknown ids return `0`. -/
structure BaseMap where
  this_id : Nat
  this_value : Nat
  rest : List (Nat × Nat)
deriving DecidableEq, Repr

def BaseMap.new (id : Nat) (v : Nat) : BaseMap := ⟨id, v, []⟩

/-- Lookup; unknown ids map to `0`. -/
def BaseMap.get (m : BaseMap) (id : Nat) : Nat :=
  if id = m.this_id then m.this_value else ((m.rest.lookup id).getD 0)

/-- Replace (or add) the binding for `id` in an association list. -/
def assocSet : List (Nat × Nat) → Nat → Nat → List (Nat × Nat)
  | [], id, v => [(id, v)]
  | (k, w) :: rest, id, v =>
    if k = id then (k, v) :: rest else (k, w) :: assocSet rest id v

/-- Point update (the `get_mut`/`this_mut` write paths). -/
def BaseMap.update (m : BaseMap) (id : Nat) (v : Nat) : BaseMap :=
  if id = m.this_id then { m with this_value := v }
  else { m with rest := assocSet m.rest id v }

/-- Modelled from the spec: forking a map gives it a new "this" entry with the
given initial value, keeping all previously known entries. -/
def BaseMap.fork (m : BaseMap) (id : Nat) (v : Nat) : BaseMap :=
  ⟨id, v, (m.this_id, m.this_value) :: m.rest⟩

def BaseMap.keys (m : BaseMap) : List Nat :=
  m.this_id :: m.rest.map Prod.fst

/-- Modelled from the spec: the partial order `A ≥ B iff ∀ id: A[id] ≥ B[id]`,
decided by checking every id known to `B` (all other ids map to `0`). -/
def BaseMap.geAll (a b : BaseMap) : Prop :=
  ∀ k ∈ b.keys, b.get k ≤ a.get k

instance (a b : BaseMap) : Decidable (a.geAll b) := by
  unfold BaseMap.geAll; infer_instance

/-- Modelled from the spec: the `Insertion` operation shape
`{ anchor, text, lamport_ts, run_ts }`. -/
structure Insertion where
  anchor : InnerAnchor
  text : Text
  lamport_ts : Nat
  run_ts : Nat
deriving DecidableEq, Repr

def Insertion.inserted_by (i : Insertion) : Nat := i.text.inserter_id

def Insertion.run_start (i : Insertion) : Nat := i.text.lo

def Insertion.len (i : Insertion) : Nat := i.text.len

/-- Modelled from the spec: a no-op insertion is signaled by an empty text
range. -/
def Insertion.no_op : Insertion := ⟨InnerAnchor.zero, ⟨0, 0, 0⟩, 0, 0⟩

def Insertion.is_no_op (i : Insertion) : Prop := i.len = 0

instance (i : Insertion) : Decidable i.is_no_op := by
  unfold Insertion.is_no_op; infer_instance

/-- Modelled from the spec: the `Deletion` operation shape
`{ start, end, version_map, deletion_ts }`; `deleted_by` is the id the
version-map snapshot was created for. -/
structure Deletion where
  d_start : InnerAnchor
  d_end : InnerAnchor
  version_map : BaseMap
  deletion_ts : Nat
deriving DecidableEq, Repr

def Deletion.deleted_by (d : Deletion) : Nat := d.version_map.this_id

/-- Modelled from the spec: the no-op deletion sentinel (`start == end`
sentinel anchors). -/
def Deletion.no_op : Deletion := ⟨InnerAnchor.zero, InnerAnchor.zero, BaseMap.new 0 0, 0⟩

def Deletion.is_no_op (d : Deletion) : Prop := d.d_end = InnerAnchor.zero

instance (d : Deletion) : Decidable d.is_no_op := by
  unfold Deletion.is_no_op; infer_instance

/-- Ordered insert of an insertion: grouped by `inserter_id`, ascending
`start` within a group. -/
def insertSortedIns : List Insertion → Insertion → List Insertion
  | [], i => [i]
  | j :: rest, i =>
    if i.inserted_by < j.inserted_by ∨
        (i.inserted_by = j.inserted_by ∧ i.run_start < j.run_start) then
      i :: j :: rest
    else
      j :: insertSortedIns rest i

/-- Ordered insert of a deletion: grouped by `deleted_by`, ascending
`deletion_ts` within a group. -/
def insertSortedDel : List Deletion → Deletion → List Deletion
  | [], d => [d]
  | e :: rest, d =>
    if d.deleted_by < e.deleted_by ∨
        (d.deleted_by = e.deleted_by ∧ d.deletion_ts < e.deletion_ts) then
      d :: e :: rest
    else
      e :: insertSortedDel rest d

/-- Modelled from the spec: the backlog (`backlog.rs` is not under `src/`):
two ordered containers, one per operation kind. -/
structure Backlog where
  insertions : List Insertion
  deletions : List Deletion
deriving DecidableEq, Repr

def Backlog.new : Backlog := ⟨[], []⟩

def Backlog.insert_insertion (b : Backlog) (i : Insertion) : Backlog :=
  { b with insertions := insertSortedIns b.insertions i }

def Backlog.insert_deletion (b : Backlog) (d : Deletion) : Backlog :=
  { b with deletions := insertSortedDel b.deletions d }

/-- Builds a fresh `EditRun` for a newly created insertion run. -/
def mkRun (txt : Text) (rts : Nat) (lts : Nat) (anchor : InnerAnchor) : EditRun :=
  ⟨txt, rts, lts, anchor, true⟩

/-- The anchor naming the position right after the first `i` characters of a
run: it carries the originator id, the run timestamp, and the originator's
character offset. -/
def anchorAt (r : EditRun) (i : Nat) : InnerAnchor :=
  ⟨r.text.inserter_id, r.run_ts, r.text.lo + i⟩

/-- Modelled from the spec: local insertion placement in the run tree
(`run_tree.rs` is not under `src/`).  Walks to the run containing the offset
(the first run whose cumulative visible length reaches it); at the document
start a new run anchored at the zero anchor is created; in the interior the
containing run is split; at the end of a run the run is extended when the new
text has the same originator and is contiguous, and a new anchored run is
created otherwise.  New runs consume the next run timestamp and the next
Lamport timestamp; extensions consume neither. -/
def insertWalk (txt : Text) : List EditRun → Nat → RunClock → LamportClock →
    (List EditRun × InnerAnchor × RunClock × LamportClock)
  | [], _, rc, lc =>
    let (rts, rc') := rc.next
    let (lts, lc') := lc.next
    ([mkRun txt rts lts InnerAnchor.zero], InnerAnchor.zero, rc', lc')
  | r :: rest, o, rc, lc =>
    if o ≤ r.visibleLen then
      if o = 0 then
        let (rts, rc') := rc.next
        let (lts, lc') := lc.next
        (mkRun txt rts lts InnerAnchor.zero :: r :: rest, InnerAnchor.zero, rc', lc')
      else if o < r.visibleLen then
        let a := anchorAt r o
        let left : EditRun := { r with text := { r.text with hi := r.text.lo + o } }
        let right : EditRun :=
          { r with text := { r.text with lo := r.text.lo + o }, parent_anchor := a }
        let (rts, rc') := rc.next
        let (lts, lc') := lc.next
        (left :: mkRun txt rts lts a :: right :: rest, a, rc', lc')
      else
        let a := anchorAt r o
        if r.text.inserter_id = txt.inserter_id ∧ r.text.hi = txt.lo ∧ r.is_visible then
          ({ r with text := { r.text with hi := txt.hi } } :: rest, a, rc, lc)
        else
          let (rts, rc') := rc.next
          let (lts, lc') := lc.next
          (r :: mkRun txt rts lts a :: rest, a, rc', lc')
    else
      let (l, a, rc', lc') := insertWalk txt rest (o - r.visibleLen) rc lc
      (r :: l, a, rc', lc')

def RunTree.insert (t : RunTree) (offset : Nat) (txt : Text)
    (rc : RunClock) (lc : LamportClock) :
    RunTree × InnerAnchor × RunClock × LamportClock :=
  let (l, a, rc', lc') := insertWalk txt t.runs offset rc lc
  (⟨l⟩, a, rc', lc')

/-- True when the existing run must stay before an incoming concurrent run
anchored at the same position: it has a strictly higher Lamport timestamp, or
an equal one and a strictly higher originating replica id. -/
def EditRun.outranks (r : EditRun) (lam : Nat) (rep : Nat) : Prop :=
  lam < r.lamport_ts ∨ (r.lamport_ts = lam ∧ rep < r.text.inserter_id)

instance (r : EditRun) (lam : Nat) (rep : Nat) :
    Decidable (r.outranks lam rep) := by
  unfold EditRun.outranks; infer_instance

/-- Modelled from the spec: among runs sharing the same anchor the total order
is higher `lamport_ts` first, ties broken by higher originating `Nat`.
Starting at the anchor position, runs anchored at the same position that
outrank the new run are skipped; the new run is inserted right after them.
Returns the new run list together with the visible length skipped over. -/
def skipScan (newRun : EditRun) (a : InnerAnchor) : List EditRun → List EditRun × Nat
  | [] => ([newRun], 0)
  | r :: rest =>
    if r.parent_anchor = a ∧ r.outranks newRun.lamport_ts newRun.text.inserter_id then
      let (l, off) := skipScan newRun a rest
      (r :: l, r.visibleLen + off)
    else
      (newRun :: r :: rest, 0)

/-- True when the run's character interval contains the anchor position
(the anchor names the boundary after character `offset - 1`). -/
def runContainsAnchor (r : EditRun) (a : InnerAnchor) : Prop :=
  r.text.inserter_id = a.replica_id ∧ r.run_ts = a.contained_in ∧
    r.text.lo < a.offset ∧ a.offset ≤ r.text.hi

instance (r : EditRun) (a : InnerAnchor) : Decidable (runContainsAnchor r a) := by
  unfold runContainsAnchor; infer_instance

/-- Modelled from the spec: remote insertion integration in the run tree.
The run containing the anchor is located through the run identity carried by
the anchor and split at the anchor offset (unless the anchor is at its end);
the new run is then placed after any same-anchored runs that outrank it.
Returns the new run list and the visible offset of the inserted run. -/
def mergeWalk (newRun : EditRun) (a : InnerAnchor) : List EditRun → List EditRun × Nat
  | [] => ([newRun], 0)
  | r :: rest =>
    if runContainsAnchor r a then
      if a.offset = r.text.hi then
        let (l, off) := skipScan newRun a rest
        (r :: l, r.visibleLen + off)
      else
        let left : EditRun := { r with text := { r.text with hi := a.offset } }
        let right : EditRun :=
          { r with text := { r.text with lo := a.offset }, parent_anchor := a }
        let (l, off) := skipScan newRun a (right :: rest)
        (left :: l, left.visibleLen + off)
    else
      let (l, off) := mergeWalk newRun a rest
      (r :: l, r.visibleLen + off)

def RunTree.merge_insertion (t : RunTree) (ins : Insertion) : RunTree × Nat :=
  let newRun : EditRun := mkRun ins.text ins.run_ts ins.lamport_ts ins.anchor
  if ins.anchor.is_zero then
    let (l, off) := skipScan newRun ins.anchor t.runs
    (⟨l⟩, off)
  else
    let (l, off) := mergeWalk newRun ins.anchor t.runs
    (⟨l⟩, off)

/-- Splits a visible run, tombstoning its characters `[i, j)`; `0 ≤ i < j ≤
len`.  Used by the local deletion path. -/
def splitDel (r : EditRun) (i j : Nat) : List EditRun :=
  let lo := r.text.lo
  (if 0 < i then [{ r with text := { r.text with hi := lo + i } }] else []) ++
  [{ r with
      text := { r.text with lo := lo + i, hi := lo + j },
      parent_anchor := if 0 < i then anchorAt r i else r.parent_anchor,
      is_visible := false }] ++
  (if j < r.text.hi - r.text.lo then
    [{ r with text := { r.text with lo := lo + j }, parent_anchor := anchorAt r j }]
  else [])

/-- Modelled from the spec: local deletion of the visible range `[s, e)`.
Runs are split at the range boundaries; every fully covered visible piece is
tombstoned.  Returns the new run list, the anchors naming the left edge of the
first deleted piece and the right edge of the last one, and the ids of the
replicas whose runs were touched. -/
def deleteWalk : List EditRun → Nat → Nat →
    List EditRun × Option InnerAnchor × Option InnerAnchor × List Nat
  | [], _, _ => ([], none, none, [])
  | r :: rest, s, e =>
    let vl := r.visibleLen
    if vl ≤ s then
      let (l, a1, a2, t) := deleteWalk rest (s - vl) (e - vl)
      (r :: l, a1, a2, t)
    else if e ≤ vl then
      (splitDel r s e ++ rest, some (anchorAt r s), some (anchorAt r e),
        [r.text.inserter_id])
    else
      let (l, _, a2, t) := deleteWalk rest 0 (e - vl)
      (splitDel r s vl ++ l, some (anchorAt r s), a2, r.text.inserter_id :: t)

def RunTree.delete (t : RunTree) (s e : Nat) :
    RunTree × InnerAnchor × InnerAnchor × List Nat :=
  let (l, a1, a2, touched) := deleteWalk t.runs s e
  (⟨l⟩, a1.getD InnerAnchor.zero, a2.getD InnerAnchor.zero, touched)

/-- True when a run's characters were all known to the deleting replica's
version-map snapshot, so the run falls inside the deleted interval. -/
def runCoveredBy (r : EditRun) (v : BaseMap) : Prop :=
  r.text.hi ≤ v.get r.text.inserter_id

instance (r : EditRun) (v : BaseMap) : Decidable (runCoveredBy r v) := by
  unfold runCoveredBy; infer_instance

/-- True when the run contains the last character before the end anchor. -/
def runContainsEndAnchor (r : EditRun) (a : InnerAnchor) : Prop :=
  r.text.inserter_id = a.replica_id ∧ r.run_ts = a.contained_in ∧
    r.text.lo < a.offset ∧ a.offset ≤ r.text.hi

instance (r : EditRun) (a : InnerAnchor) : Decidable (runContainsEndAnchor r a) := by
  unfold runContainsEndAnchor; infer_instance

/-- True when the run contains the first deleted character named by the
start anchor. -/
def runContainsStartAnchor (r : EditRun) (a : InnerAnchor) : Prop :=
  r.text.inserter_id = a.replica_id ∧ r.run_ts = a.contained_in ∧
    r.text.lo ≤ a.offset ∧ a.offset < r.text.hi

instance (r : EditRun) (a : InnerAnchor) : Decidable (runContainsStartAnchor r a) := by
  unfold runContainsStartAnchor; infer_instance

/-- Tombstones the characters `[c1, c2)` (absolute character timestamps) of a
visible run, returning the new pieces and the visible offset range deleted. -/
def tombstonePiece (r : EditRun) (off c1 c2 : Nat) :
    List EditRun × List (Nat × Nat) :=
  if r.is_visible ∧ c1 < c2 then
    let i := c1 - r.text.lo
    let j := c2 - r.text.lo
    (splitDel r i j, [(off + i, off + j)])
  else
    ([r], [])

/-- Modelled from the spec: remote deletion integration.  Everything between
the start and end anchors whose characters were known to the deleting
replica's version-map snapshot is tombstoned; positions of concurrently
inserted runs inside the interval are skipped, which can split the returned
offset ranges. -/
def mergeDelWalk (d : Deletion) : List EditRun → Bool → Nat →
    List EditRun × List (Nat × Nat)
  | [], _, _ => ([], [])
  | r :: rest, inside, off =>
    let vl := r.visibleLen
    if inside then
      if runContainsEndAnchor r d.d_end then
        let (pieces, ranges) := tombstonePiece r off r.text.lo d.d_end.offset
        (pieces ++ rest, ranges)
      else
        let (pieces, ranges) :=
          if runCoveredBy r d.version_map then
            tombstonePiece r off r.text.lo r.text.hi
          else ([r], [])
        let (l, more) := mergeDelWalk d rest true (off + vl)
        (pieces ++ l, ranges ++ more)
    else
      if runContainsStartAnchor r d.d_start then
        if runContainsEndAnchor r d.d_end ∧ d.d_end.offset ≤ r.text.hi then
          let (pieces, ranges) := tombstonePiece r off d.d_start.offset d.d_end.offset
          (pieces ++ rest, ranges)
        else
          let (pieces, ranges) := tombstonePiece r off d.d_start.offset r.text.hi
          let (l, more) := mergeDelWalk d rest true (off + vl)
          (pieces ++ l, ranges ++ more)
      else
        let (l, more) := mergeDelWalk d rest false (off + vl)
        (r :: l, more)

/-- Coalesces adjacent offset ranges. -/
def coalesce : List (Nat × Nat) → List (Nat × Nat)
  | (a, b) :: (c, d) :: rest =>
    if b = c then coalesce ((a, d) :: rest) else (a, b) :: coalesce ((c, d) :: rest)
  | l => l
termination_by l => l.length

def RunTree.merge_deletion (t : RunTree) (d : Deletion) :
    RunTree × List (Nat × Nat) :=
  let (l, ranges) := mergeDelWalk d t.runs false 0
  (⟨l⟩, coalesce ranges)

/-- The inner anchor naming the boundary around visible character `p`:
to its right boundary when `after` is set, to its left otherwise. -/
def charAnchor : List EditRun → Nat → Bool → InnerAnchor
  | [], _, _ => InnerAnchor.zero
  | r :: rest, p, after =>
    if p < r.visibleLen then
      ⟨r.text.inserter_id, r.run_ts, r.text.lo + p + (if after then 1 else 0)⟩
    else
      charAnchor rest (p - r.visibleLen) after

/-- Modelled from the spec: anchor creation.  Offset `0` with a left bias and
offset `len` with a right bias give the document sentinels; otherwise the
anchor sticks to the character on the biased side of the offset. -/
def RunTree.create_anchor (t : RunTree) (off : Nat) (bias : AnchorBias) : Anchor :=
  if off = 0 ∧ bias = AnchorBias.Left then Anchor.start_of_document
  else if off = t.len ∧ bias = AnchorBias.Right then Anchor.end_of_document
  else
    match bias with
    | AnchorBias.Left => ⟨charAnchor t.runs (off - 1) true, AnchorBias.Left⟩
    | AnchorBias.Right => ⟨charAnchor t.runs off false, AnchorBias.Right⟩

/-- The per-peer CRDT state (`Replica` in `replica.rs`). -/
structure Replica where
  id : Nat
  run_tree : RunTree
  lamport_clock : LamportClock
  run_clock : RunClock
  version_map : BaseMap
  deletion_map : BaseMap
  backlog : Backlog
deriving DecidableEq, Repr

def Replica.len (r : Replica) : Nat := r.run_tree.len

/-- Mirrors `Replica::new`: panics (`none`) when the id is zero; otherwise seeds the
run tree with a single visible run `(id, [0, len))`. -/
def Replica.new (id : Nat) (len : Nat) : Option Replica :=
  if id = 0 then none
  else
    let rc := RunClock.new
    let lc := LamportClock.new
    let (rts, rc) := rc.next
    let (lts, lc) := lc.next
    let first_run := mkRun ⟨id, 0, len⟩ rts lts InnerAnchor.zero
    some
      { id := id
        run_tree := ⟨[first_run]⟩
        lamport_clock := lc
        run_clock := rc
        version_map := BaseMap.new id len
        deletion_map := BaseMap.new id 0
        backlog := Backlog.new }

/-- Mirrors `Replica::fork`: panics (`none`) when the new id is zero or equal to this
replica's id; otherwise deep-copies the state, resets the run clock, and gives
the maps a fresh zero entry for the new id. -/
def Replica.fork (r : Replica) (new_id : Nat) : Option Replica :=
  if new_id = 0 then none
  else if new_id = r.id then none
  else
    some
      { id := new_id
        run_tree := r.run_tree
        run_clock := RunClock.new
        lamport_clock := r.lamport_clock
        version_map := r.version_map.fork new_id 0
        deletion_map := r.deletion_map.fork new_id 0
        backlog := r.backlog }

/-- Mirrors `Replica::has_anchor`: `version_map[anchor.replica_id] >= anchor.offset`. -/
def Replica.has_anchor (r : Replica) (a : InnerAnchor) : Prop :=
  a.offset ≤ r.version_map.get a.replica_id

instance (r : Replica) (a : InnerAnchor) : Decidable (r.has_anchor a) := by
  unfold Replica.has_anchor; infer_instance

/-- Mirrors `Replica::has_merged_deletion`:
`deletion_map[deleted_by] >= deletion_ts`. -/
def Replica.has_merged_deletion (r : Replica) (d : Deletion) : Prop :=
  d.deletion_ts ≤ r.deletion_map.get d.deleted_by

instance (r : Replica) (d : Deletion) : Decidable (r.has_merged_deletion d) := by
  unfold Replica.has_merged_deletion; infer_instance

/-- Mirrors `Replica::has_merged_insertion`: `version_map[inserted_by] > start`. -/
def Replica.has_merged_insertion (r : Replica) (i : Insertion) : Prop :=
  i.run_start < r.version_map.get i.inserted_by

instance (r : Replica) (i : Insertion) : Decidable (r.has_merged_insertion i) := by
  unfold Replica.has_merged_insertion; infer_instance

/-- Mirrors `Replica::can_merge_deletion`: the deletion is next in the deleter's
sequence and the local version map dominates the deletion's snapshot. -/
def Replica.can_merge_deletion (r : Replica) (d : Deletion) : Prop :=
  r.deletion_map.get d.deleted_by + 1 = d.deletion_ts ∧
    r.version_map.geAll d.version_map

instance (r : Replica) (d : Deletion) : Decidable (r.can_merge_deletion d) := by
  unfold Replica.can_merge_deletion; infer_instance

/-- Mirrors `Replica::can_merge_insertion`: the insertion is next in the inserter's
sequence and the anchor's originating run has been seen. -/
def Replica.can_merge_insertion (r : Replica) (i : Insertion) : Prop :=
  r.version_map.get i.inserted_by = i.run_start ∧ r.has_anchor i.anchor

instance (r : Replica) (i : Insertion) : Decidable (r.can_merge_insertion i) := by
  unfold Replica.can_merge_insertion; infer_instance

/-- Mirrors `Replica::create_anchor`: panics (`none`) on an out-of-bounds offset. -/
def Replica.create_anchor (r : Replica) (off : Nat) (bias : AnchorBias) :
    Option Anchor :=
  if off > r.len then none
  else some (r.run_tree.create_anchor off bias)

/-- Mirrors `Replica::inserted`: panics (`none`) on an out-of-bounds offset; a
zero-length insertion is the explicit no-op; otherwise the version map's own
entry grows by `len`, the run tree places the text, and the resulting
`Insertion` carries the produced anchor and the clock values. -/
def Replica.inserted (r : Replica) (at_offset : Nat) (len : Nat) :
    Option (Replica × Insertion) :=
  if at_offset > r.len then none
  else if len = 0 then some (r, Insertion.no_op)
  else
    let start := r.version_map.this_value
    let vm := { r.version_map with this_value := r.version_map.this_value + len }
    let txt : Text := ⟨r.id, start, start + len⟩
    let (tree, anchor, rc, lc) := r.run_tree.insert at_offset txt r.run_clock r.lamport_clock
    some
      ({ r with version_map := vm, run_tree := tree, run_clock := rc, lamport_clock := lc },
        ⟨anchor, txt, lc.highest, rc.last⟩)

/-- Mirrors `Replica::deleted`: panics (`none`) when the end is out of bounds or the
start exceeds the end; an empty range is the explicit no-op; otherwise the run
tree tombstones the range, the version-map snapshot of the touched replicas is
taken, and the deleter's deletion clock is bumped. -/
def Replica.deleted (r : Replica) (s e : Nat) : Option (Replica × Deletion) :=
  if e > r.len then none
  else if s > e then none
  else if s = e then some (r, Deletion.no_op)
  else
    let (tree, a1, a2, touched) := r.run_tree.delete s e
    let vm : BaseMap :=
      ⟨r.id, r.version_map.get r.id,
        ((touched.filter (fun i => i ≠ r.id)).dedup).map
          (fun i => (i, r.version_map.get i))⟩
    let dm := { r.deletion_map with this_value := r.deletion_map.this_value + 1 }
    some
      ({ r with run_tree := tree, deletion_map := dm },
        ⟨a1, a2, vm, dm.this_value⟩)

/-- Mirrors `Replica::merge_unchecked_insertion`: merges in the run tree, advances the
inserter's version-map entry by the insertion length, and merges the Lamport
clock. -/
def Replica.merge_unchecked_insertion (r : Replica) (i : Insertion) :
    Replica × Nat :=
  let (tree, off) := r.run_tree.merge_insertion i
  let vm := r.version_map.update i.inserted_by (r.version_map.get i.inserted_by + i.len)
  let lc := r.lamport_clock.merge i.lamport_ts
  ({ r with run_tree := tree, version_map := vm, lamport_clock := lc }, off)

/-- Mirrors `Replica::merge_unchecked_deletion`: merges in the run tree and records
the deleter's deletion timestamp. -/
def Replica.merge_unchecked_deletion (r : Replica) (d : Deletion) :
    Replica × List (Nat × Nat) :=
  let (tree, ranges) := r.run_tree.merge_deletion d
  let dm := r.deletion_map.update d.deleted_by d.deletion_ts
  ({ r with run_tree := tree, deletion_map := dm }, ranges)

/-- Mirrors `Replica::integrate_insertion`: no-ops and already-merged insertions
return `none` untouched; ready insertions are merged; everything else is
backlogged (never rejected). -/
def Replica.integrate_insertion (r : Replica) (i : Insertion) :
    Replica × Option Nat :=
  if i.is_no_op ∨ r.has_merged_insertion i then (r, none)
  else if r.can_merge_insertion i then
    let (r2, off) := r.merge_unchecked_insertion i
    (r2, some off)
  else
    ({ r with backlog := r.backlog.insert_insertion i }, none)

/-- Mirrors `Replica::integrate_deletion`: no-ops and already-merged deletions return
an empty range list untouched; ready deletions are merged; everything else is
backlogged (never rejected). -/
def Replica.integrate_deletion (r : Replica) (d : Deletion) :
    Replica × List (Nat × Nat) :=
  if d.is_no_op ∨ r.has_merged_deletion d then (r, [])
  else if r.can_merge_deletion d then
    r.merge_unchecked_deletion d
  else
    ({ r with backlog := r.backlog.insert_deletion d }, [])

end Cola

namespace Cola

/-- Modelled from the spec: LEB128-style variable-length integer encoding
(little-endian base-128 groups, high bit as continuation marker). -/
def encodeInt (n : Nat) : List Nat :=
  if h : n < 128 then [n]
  else (n % 128 + 128) :: encodeInt (n / 128)
decreasing_by exact Nat.div_lt_self (by omega) (by omega)

/-- Modelled from the spec: LEB128-style integer decoding. -/
def decodeInt : List Nat → Option (Nat × List Nat)
  | [] => none
  | b :: rest =>
    if b < 128 then some (b, rest)
    else
      match decodeInt rest with
      | some (m, r) => some (m * 128 + (b - 128), r)
      | none => none

/-- Modelled from the spec: booleans encode as one byte, `0` or `1`. -/
def encodeBool (b : Bool) : List Nat := [if b then 1 else 0]

def decodeBool : List Nat → Option (Bool × List Nat)
  | [] => none
  | b :: rest =>
    if b = 0 then some (false, rest)
    else if b = 1 then some (true, rest)
    else none

/-- Length-prefixed encoding of a list of values. -/
def encodeListWith (g : α → List Nat) (xs : List α) : List Nat :=
  encodeInt xs.length ++ xs.foldr (fun x acc => g x ++ acc) []

/-- Decodes exactly `n` values. -/
def decodeCount (g : List Nat → Option (α × List Nat)) :
    Nat → List Nat → Option (List α × List Nat)
  | 0, b => some ([], b)
  | n + 1, b =>
    match g b with
    | none => none
    | some (x, b) =>
      match decodeCount g n b with
      | none => none
      | some (xs, b) => some (x :: xs, b)

def decodeListWith (g : List Nat → Option (α × List Nat)) (b : List Nat) :
    Option (List α × List Nat) :=
  match decodeInt b with
  | none => none
  | some (n, b) => decodeCount g n b

/-- Mirrors `Encode for InnerAnchor` (from `anchor.rs`): replica id, run timestamp,
then offset. -/
def InnerAnchor.encode (a : InnerAnchor) : List Nat :=
  encodeInt a.replica_id ++ encodeInt a.contained_in ++ encodeInt a.offset

/-- Mirrors `Decode for InnerAnchor` (from `anchor.rs`). -/
def InnerAnchor.decode (b : List Nat) : Option (InnerAnchor × List Nat) :=
  match decodeInt b with
  | none => none
  | some (rid, b) =>
    match decodeInt b with
    | none => none
    | some (rts, b) =>
      match decodeInt b with
      | none => none
      | some (off, b) => some (⟨rid, rts, off⟩, b)

/-- Modelled from the spec: `Text` encoding (inserter id, then the interval
bounds). -/
def Text.encode (t : Text) : List Nat :=
  encodeInt t.inserter_id ++ encodeInt t.lo ++ encodeInt t.hi

def Text.decode (b : List Nat) : Option (Text × List Nat) :=
  match decodeInt b with
  | none => none
  | some (i, b) =>
    match decodeInt b with
    | none => none
    | some (lo, b) =>
      match decodeInt b with
      | none => none
      | some (hi, b) => some (⟨i, lo, hi⟩, b)

/-- Modelled from the spec: `EditRun` encoding (all run attributes, with the
visibility flag as a one-byte boolean). -/
def EditRun.encode (r : EditRun) : List Nat :=
  r.text.encode ++ encodeInt r.run_ts ++ encodeInt r.lamport_ts ++
    r.parent_anchor.encode ++ encodeBool r.is_visible

def EditRun.decode (b : List Nat) : Option (EditRun × List Nat) :=
  match Text.decode b with
  | none => none
  | some (t, b) =>
    match decodeInt b with
    | none => none
    | some (rts, b) =>
      match decodeInt b with
      | none => none
      | some (lts, b) =>
        match InnerAnchor.decode b with
        | none => none
        | some (pa, b) =>
          match decodeBool b with
          | none => none
          | some (v, b) => some (⟨t, rts, lts, pa, v⟩, b)

/-- Modelled from the spec: `RunTree` encoding, a length-prefixed run list. -/
def RunTree.encode (t : RunTree) : List Nat :=
  encodeListWith EditRun.encode t.runs

def RunTree.decode (b : List Nat) : Option (RunTree × List Nat) :=
  match decodeListWith EditRun.decode b with
  | none => none
  | some (rs, b) => some (⟨rs⟩, b)

/-- Mirrors `Encode for LamportClock` (from `replica.rs`): the raw counter. -/
def LamportClock.encode (c : LamportClock) : List Nat := encodeInt c.ts

/-- Mirrors `Decode for LamportClock` (from `replica.rs`). -/
def LamportClock.decode (b : List Nat) : Option (LamportClock × List Nat) :=
  match decodeInt b with
  | none => none
  | some (ts, b) => some (⟨ts⟩, b)

/-- Modelled from the spec: `VersionMap`/`DeletionMap` encoding: the
distinguished entry followed by the length-prefixed association list. -/
def BaseMap.encode (m : BaseMap) : List Nat :=
  encodeInt m.this_id ++ encodeInt m.this_value ++
    encodeListWith (fun kv => encodeInt kv.1 ++ encodeInt kv.2) m.rest

def decodePair (b : List Nat) : Option ((Nat × Nat) × List Nat) :=
  match decodeInt b with
  | none => none
  | some (k, b) =>
    match decodeInt b with
    | none => none
    | some (v, b) => some ((k, v), b)

def BaseMap.decode (b : List Nat) : Option (BaseMap × List Nat) :=
  match decodeInt b with
  | none => none
  | some (tid, b) =>
    match decodeInt b with
    | none => none
    | some (tv, b) =>
      match decodeListWith decodePair b with
      | none => none
      | some (rest, b) => some (⟨tid, tv, rest⟩, b)

/-- Modelled from the spec: `Insertion` encoding. -/
def Insertion.encode (i : Insertion) : List Nat :=
  i.anchor.encode ++ i.text.encode ++ encodeInt i.lamport_ts ++ encodeInt i.run_ts

def Insertion.decode (b : List Nat) : Option (Insertion × List Nat) :=
  match InnerAnchor.decode b with
  | none => none
  | some (a, b) =>
    match Text.decode b with
    | none => none
    | some (t, b) =>
      match decodeInt b with
      | none => none
      | some (lts, b) =>
        match decodeInt b with
        | none => none
        | some (rts, b) => some (⟨a, t, lts, rts⟩, b)

/-- Modelled from the spec: `Deletion` encoding. -/
def Deletion.encode (d : Deletion) : List Nat :=
  d.d_start.encode ++ d.d_end.encode ++ d.version_map.encode ++
    encodeInt d.deletion_ts

def Deletion.decode (b : List Nat) : Option (Deletion × List Nat) :=
  match InnerAnchor.decode b with
  | none => none
  | some (a1, b) =>
    match InnerAnchor.decode b with
    | none => none
    | some (a2, b) =>
      match BaseMap.decode b with
      | none => none
      | some (vm, b) =>
        match decodeInt b with
        | none => none
        | some (ts, b) => some (⟨a1, a2, vm, ts⟩, b)

/-- Modelled from the spec: `Backlog` encoding, the two operation lists. -/
def Backlog.encode (bl : Backlog) : List Nat :=
  encodeListWith Insertion.encode bl.insertions ++
    encodeListWith Deletion.encode bl.deletions

def Backlog.decode (b : List Nat) : Option (Backlog × List Nat) :=
  match decodeListWith Insertion.decode b with
  | none => none
  | some (ins, b) =>
    match decodeListWith Deletion.decode b with
    | none => none
    | some (dels, b) => some (⟨ins, dels⟩, b)

/-- Mirrors `Encode for Replica` (from `replica.rs`): run tree, Lamport clock,
version map, deletion map, backlog, in this order. -/
def Replica.encodePayload (r : Replica) : List Nat :=
  r.run_tree.encode ++ r.lamport_clock.encode ++ r.version_map.encode ++
    r.deletion_map.encode ++ r.backlog.encode

/-- Mirrors `Decode for Replica` (from `replica.rs`): the five components, decoded
left to right. -/
def decodeReplicaParts (b : List Nat) :
    Option ((RunTree × LamportClock × BaseMap × BaseMap × Backlog) × List Nat) :=
  match RunTree.decode b with
  | none => none
  | some (rt, b) =>
    match LamportClock.decode b with
    | none => none
    | some (lc, b) =>
      match BaseMap.decode b with
      | none => none
      | some (vm, b) =>
        match BaseMap.decode b with
        | none => none
        | some (dm, b) =>
          match Backlog.decode b with
          | none => none
          | some (bl, b) => some ((rt, lc, vm, dm, bl), b)

/-- Truncation to a 32-bit word. -/
def w32 (x : Nat) : Nat := x % 4294967296

/-- Right rotation of a 32-bit word. -/
def rotr32 (n x : Nat) : Nat := w32 ((x >>> n) ||| (x <<< (32 - n)))

/-- The largest `k` with `k ^ 3 ≤ n`, by bisection. -/
def icbrtGo (n : Nat) : Nat → Nat → Nat → Nat
  | lo, _, 0 => lo
  | lo, hi, fuel + 1 =>
    let mid := (lo + hi + 1) / 2
    if mid ≤ lo then lo
    else if mid * mid * mid ≤ n then icbrtGo n mid hi fuel
    else icbrtGo n lo (mid - 1) fuel

def icbrt (n : Nat) : Nat := icbrtGo n 0 (n + 1) 130

/-- The first 64 primes, the basis of the SHA-256 round constants. -/
def sha256Primes : List Nat :=
  ((List.range 320).filter (fun n => Nat.Prime n)).take 64

/-- The SHA-256 round constants: the first 32 bits of the fractional parts of
the cube roots of the first 64 primes. -/
def sha256K : List Nat :=
  sha256Primes.map (fun p => w32 (icbrt (p * 2 ^ 96)))

/-- The SHA-256 initial hash words: the first 32 bits of the fractional parts
of the square roots of the first 8 primes. -/
def sha256H0 : List Nat :=
  (sha256Primes.take 8).map (fun p => w32 (Nat.sqrt (p * 2 ^ 64)))

/-- Big-endian bytes of a 64-bit value. -/
def be64 (n : Nat) : List Nat :=
  [n / 2 ^ 56 % 256, n / 2 ^ 48 % 256, n / 2 ^ 40 % 256, n / 2 ^ 32 % 256,
    n / 2 ^ 24 % 256, n / 2 ^ 16 % 256, n / 2 ^ 8 % 256, n % 256]

/-- Big-endian bytes of a 32-bit word. -/
def be32 (n : Nat) : List Nat :=
  [n / 2 ^ 24 % 256, n / 2 ^ 16 % 256, n / 2 ^ 8 % 256, n % 256]

/-- SHA-256 padding: a `0x80` byte, zeros to 56 mod 64, then the bit length. -/
def sha256Pad (msg : List Nat) : List Nat :=
  msg ++ 128 :: List.replicate ((119 - msg.length % 64) % 64) 0 ++
    be64 (msg.length * 8)

/-- Interprets four consecutive bytes as a big-endian 32-bit word. -/
def word32At (bytes : List Nat) (i : Nat) : Nat :=
  (bytes.getD i 0) * 2 ^ 24 + (bytes.getD (i + 1) 0) * 2 ^ 16 +
    (bytes.getD (i + 2) 0) * 2 ^ 8 + bytes.getD (i + 3) 0

/-- The SHA-256 message schedule of one 64-byte block. -/
def sha256Schedule (block : List Nat) : List Nat :=
  let first16 := (List.range 16).map (fun i => word32At block (4 * i))
  let step := fun (w : List Nat) (i : Nat) =>
    let a := w.getD (i - 15) 0
    let b := w.getD (i - 2) 0
    let s0 := rotr32 7 a ^^^ rotr32 18 a ^^^ (a >>> 3)
    let s1 := rotr32 17 b ^^^ rotr32 19 b ^^^ (b >>> 10)
    w ++ [w32 (w.getD (i - 16) 0 + s0 + w.getD (i - 7) 0 + s1)]
  (List.range 48).foldl (fun w j => step w (16 + j)) first16

/-- One round of the SHA-256 compression function. -/
def sha256Round (st : List Nat) (k w : Nat) : List Nat :=
  let a := st.getD 0 0
  let b := st.getD 1 0
  let c := st.getD 2 0
  let d := st.getD 3 0
  let e := st.getD 4 0
  let f := st.getD 5 0
  let g := st.getD 6 0
  let h := st.getD 7 0
  let s1 := rotr32 6 e ^^^ rotr32 11 e ^^^ rotr32 25 e
  let ch := (e &&& f) ^^^ ((4294967295 - e) &&& g)
  let t1 := w32 (h + s1 + ch + k + w)
  let s0 := rotr32 2 a ^^^ rotr32 13 a ^^^ rotr32 22 a
  let mj := (a &&& b) ^^^ (a &&& c) ^^^ (b &&& c)
  let t2 := w32 (s0 + mj)
  [w32 (t1 + t2), a, b, c, w32 (d + t1), e, f, g]

/-- Processes one 64-byte block. -/
def sha256Block (h : List Nat) (block : List Nat) : List Nat :=
  let ws := sha256Schedule block
  let st := (List.range 64).foldl
    (fun st i => sha256Round st (sha256K.getD i 0) (ws.getD i 0)) h
  (List.range 8).map (fun i => w32 (h.getD i 0 + st.getD i 0))

def sha256Blocks (h : List Nat) : List Nat → List Nat
  | [] => h
  | b :: rest =>
    sha256Blocks (sha256Block h ((b :: rest).take 64)) ((b :: rest).drop 64)
termination_by bytes => bytes.length
decreasing_by simp [List.length_drop]; omega

/-- The SHA-256 digest of a byte sequence, as 32 bytes (the payload checksum
from `encoded_replica.rs`; the `Sha256` implementation itself comes from the
external `sha2` crate). -/
def sha256 (msg : List Nat) : List Nat :=
  ((sha256Blocks sha256H0 (sha256Pad msg)).map be32).flatten

/-- Modelled from the spec: the on-wire protocol version (a constant `u16`
bumped on breaking changes; its concrete value is immaterial here). -/
def protocolVersion : Nat := 1

/-- Mirrors `EncodedReplica` from `encoded_replica.rs`: protocol version, 32-byte
checksum of the payload, and the payload bytes. -/
structure EncodedReplica where
  protocol_version : Nat
  checksum : List Nat
  bytes : List Nat
deriving DecidableEq, Repr

/-- Mirrors `DecodeError` from `encoded_replica.rs`. -/
inductive DecodeError where
  | ChecksumFailed
  | DifferentProtocol (encoded_on : Nat) (decoding_on : Nat)
  | InvalidData
deriving DecidableEq, Repr

/-- Modelled from the spec: `EncodedReplica::from_replica` (the body is not
under `src/`): the encoded payload together with its SHA-256 checksum. -/
def EncodedReplica.from_replica (r : Replica) : EncodedReplica :=
  let payload := r.encodePayload
  ⟨protocolVersion, sha256 payload, payload⟩

/-- Mirrors `Replica::encode` (from `replica.rs`). -/
def Replica.encode (r : Replica) : EncodedReplica :=
  EncodedReplica.from_replica r

/-- Modelled from the spec: `EncodedReplica::to_replica` (the body is not
under `src/`): checks the protocol version, then the checksum, then decodes
the payload strictly left to right, rejecting trailing garbage. -/
def EncodedReplica.to_replica (e : EncodedReplica) :
    Except DecodeError (RunTree × LamportClock × BaseMap × BaseMap × Backlog) :=
  if e.protocol_version ≠ protocolVersion then
    Except.error (DecodeError.DifferentProtocol e.protocol_version protocolVersion)
  else if e.checksum ≠ sha256 e.bytes then
    Except.error DecodeError.ChecksumFailed
  else
    match decodeReplicaParts e.bytes with
    | some (v, []) => Except.ok v
    | _ => Except.error DecodeError.InvalidData

/-- Mirrors `Replica::decode` (from `replica.rs`): panics (`none`) on a zero id;
otherwise decodes the five components, resets the run clock, and gives the
maps a fresh zero entry for the new id. -/
def Replica.decode (id : Nat) (e : EncodedReplica) :
    Option (Except DecodeError Replica) :=
  if id = 0 then none
  else
    match e.to_replica with
    | Except.error err => some (Except.error err)
    | Except.ok (rt, lc, vm, dm, bl) =>
      some (Except.ok
        { id := id
          run_tree := rt
          run_clock := RunClock.new
          lamport_clock := lc
          version_map := vm.fork id 0
          deletion_map := dm.fork id 0
          backlog := bl })

/-- Mirrors `Replica::eq_decoded` (from `replica.rs`): run trees and backlogs
equal. -/
def Replica.eq_decoded (a b : Replica) : Prop :=
  a.run_tree = b.run_tree ∧ a.backlog = b.backlog

instance (a b : Replica) : Decidable (a.eq_decoded b) := by
  unfold Replica.eq_decoded; infer_instance

instance : Inhabited Replica :=
  ⟨{ id := 1, run_tree := ⟨[]⟩, lamport_clock := ⟨0⟩, run_clock := ⟨0⟩,
     version_map := BaseMap.new 1 0, deletion_map := BaseMap.new 1 0,
     backlog := Backlog.new }⟩

instance : Inhabited Insertion := ⟨Insertion.no_op⟩

def tieR1 : Replica := (Replica.new 1 0).getD default
def tieR2 : Replica := (tieR1.fork 2).getD default
def tieP1 : Replica × Insertion := (tieR1.inserted 0 1).getD (default, default)
def tieP2 : Replica × Insertion := (tieR2.inserted 0 1).getD (default, default)
def tieQ1 : Replica × Option Nat := tieP1.1.integrate_insertion tieP2.2
def tieQ2 : Replica × Option Nat := tieP2.1.integrate_insertion tieP1.2
def cxIns1 : Insertion := ((tieR1.inserted 0 1).getD (default, default)).2
def cxB : Replica :=
  ((((tieR2.inserted 0 1).getD (default, default)).1.inserted 0 1).getD
    (default, default)).1
def delBase : Replica := (Replica.new 1 4).getD default
def delR2 : Replica := (delBase.fork 2).getD default

instance : Inhabited Deletion := ⟨Deletion.no_op⟩

def delOp : Deletion := ((delBase.deleted 1 3).getD (default, default)).2
end Cola

namespace GT

/-!
Functional model of the generic `Gtree` (`src/gtree.rs`).

The two arenas only give the tree stable handles and an in-memory layout; the
tree itself is the nesting structure, modelled here as a rose tree.  An
internal node stores its cached summary (the `summary` field of `Inode`) and
its children in order; `has_leaves` is subsumed by the constructors.  The
summary type of the claims' instantiation aggregates a single length, so
`Summary = Nat` with `Length::len` the identity, `+`/`-` the (saturating)
`Nat` operations and `Summary::patch old new` acting as `s - old + s`.
`LeafIdx` handles are represented by the leaf's position in the in-order leaf
sequence; the one-slot `last_insertion_cache` therefore stores a leaf position
together with its summary offset.
-/

inductive GNode (L : Type) where
  | leafN (val : L)
  | inode (s : Nat) (cs : List (GNode L))
deriving Repr

variable {L : Type}

/-- The summary of a node: a leaf summarizes to its length, an internal node
returns its stored summary. -/
def nodeSummary (llen : L → Nat) : GNode L → Nat
  | .leafN v => llen v
  | .inode s _ => s

/-- The sum of the children's summaries (`summary_offset_of_child` over a full
child list). -/
def sumNS (llen : L → Nat) (cs : List (GNode L)) : Nat :=
  (cs.map (nodeSummary llen)).sum

mutual
/-- The in-order leaf sequence of a node. -/
def leavesOf : GNode L → List L
  | .leafN v => [v]
  | .inode _ cs => leavesList cs
/-- The in-order leaf sequence of a child list. -/
def leavesList : List (GNode L) → List L
  | [] => []
  | c :: cs => leavesOf c ++ leavesList cs
end

def countLeaves (n : GNode L) : Nat := (leavesOf n).length

def countLeavesList (cs : List (GNode L)) : Nat := (leavesList cs).length

mutual
/-- The Gtree summary invariant: every internal node's stored summary is the
sum of its children's summaries. -/
def validB (llen : L → Nat) : GNode L → Bool
  | .leafN _ => true
  | .inode s cs => (s == sumNS llen cs) && validList llen cs
def validList (llen : L → Nat) : List (GNode L) → Bool
  | [] => true
  | c :: cs => validB llen c && validList llen cs
end

def isInodeB : GNode L → Bool
  | .leafN _ => false
  | .inode _ _ => true

/-- Mirrors `Inode::insert`: a child is placed at the offset and the summary grows by
the child's summary. -/
def inodeInsert (s : Nat) (cs : List (GNode L)) (i : Nat) (child : GNode L)
    (childSummary : Nat) : Nat × List (GNode L) :=
  (s + childSummary, cs.insertIdx i child)

/-- Mirrors `Inode::insert_two`: inserts the first child at `fo` and the second at
`so + 1`. -/
def inodeInsertTwo (s : Nat) (cs : List (GNode L)) (fo : Nat) (fc : GNode L)
    (fs : Nat) (so : Nat) (sc : GNode L) (ss : Nat) : Nat × List (GNode L) :=
  let (s1, cs1) := inodeInsert s cs fo fc fs
  inodeInsert s1 cs1 (so + 1) sc ss

/-- Mirrors `Inode::split`: the first `i` children keep the given summary, the rest
move to a fresh inode with the remainder. -/
def inodeSplit (s : Nat) (cs : List (GNode L)) (i : Nat) (newSummary : Nat) :
    (Nat × List (GNode L)) × (Nat × List (GNode L)) :=
  ((newSummary, cs.take i), (s - newSummary, cs.drop i))

/-- Mirrors `Gtree::split_inode`: splits, computing the left summary as the sum of the
first `i` child summaries. -/
def splitInode (llen : L → Nat) (s : Nat) (cs : List (GNode L)) (i : Nat) :
    (Nat × List (GNode L)) × (Nat × List (GNode L)) :=
  inodeSplit s cs i (sumNS llen (cs.take i))

/-- Mirrors `Gtree::insert_in_inode`: inserts one child, splitting a full inode so
that the extra (right) inode always ends up with `ARITY / 2` children. -/
def insertInInode (llen : L → Nat) (arity : Nat) (s : Nat)
    (cs : List (GNode L)) (i : Nat) (child : GNode L) (childSummary : Nat) :
    (Nat × List (GNode L)) × Option (Nat × List (GNode L)) :=
  let mc := arity / 2
  if cs.length = arity then
    let so := cs.length - mc
    if i ≤ mc then
      let (left, rest) := splitInode llen s cs so
      (inodeInsert left.1 left.2 i child childSummary, some rest)
    else
      let (left, rest) := splitInode llen s cs (so + 1)
      (left, some (inodeInsert rest.1 rest.2 (i - left.2.length) child childSummary))
  else
    (inodeInsert s cs i child childSummary, none)

/-- Mirrors `Gtree::insert_two_in_inode`: inserts two children, splitting when fewer
than two slots are free.  The single self-call of the source (which always
lands in the non-full branch) is realised through a fuel argument. -/
def insertTwoInInodeGo (llen : L → Nat) (arity : Nat) :
    Nat → Nat → List (GNode L) → Nat → GNode L → Nat → Nat → GNode L → Nat →
    (Nat × List (GNode L)) × Option (Nat × List (GNode L))
  | 0, s, cs, _, _, _, _, _, _ => ((s, cs), none)
  | fuel + 1, s, cs, fo0, fc0, fs0, so0, sc0, ss0 =>
    let (fc, sc, fo, so, fs, ss) :=
      if fo0 > so0 then (sc0, fc0, so0, fo0, ss0, fs0)
      else (fc0, sc0, fo0, so0, fs0, ss0)
    let mc := arity / 2
    let len := cs.length
    if arity - len < 2 then
      let soff := len - mc
      let afterSecond := len - so
      if afterSecond > mc - 1 then
        let (left, rest) := splitInode llen s cs soff
        ((insertTwoInInodeGo llen arity fuel left.1 left.2 fo fc fs so sc ss).1,
          some rest)
      else if afterSecond < mc - 1 ∧ fo ≥ soff + 2 then
        let (left, rest) := splitInode llen s cs (soff + 2)
        let newLen := left.2.length
        (left, some (inodeInsertTwo rest.1 rest.2 (fo - newLen) fc fs
          (so - newLen) sc ss))
      else
        let (left, rest) := splitInode llen s cs (soff + 1)
        let newLen := left.2.length
        let rest2 := inodeInsert rest.1 rest.2 (so - newLen) sc ss
        let left2 := inodeInsert left.1 left.2 fo fc fs
        (left2, some rest2)
    else
      (inodeInsertTwo s cs fo fc fs so sc ss, none)

def insertTwoInInode (llen : L → Nat) (arity : Nat) (s : Nat)
    (cs : List (GNode L)) (fo : Nat) (fc : GNode L) (fs : Nat) (so : Nat)
    (sc : GNode L) (ss : Nat) :
    (Nat × List (GNode L)) × Option (Nat × List (GNode L)) :=
  insertTwoInInodeGo llen arity (cs.length + 1) s cs fo fc fs so sc ss

/-- Mirrors `Gtree::root_has_split` via `Inode::from_two_internals`: the new root's
only two children are the old root and the split half. -/
def rootHasSplit (llen : L → Nat) (root sp : GNode L) : GNode L :=
  GNode.inode (nodeSummary llen root + nodeSummary llen sp) [root, sp]

/-- Mirrors `Gtree::child_at_offset`: the first child whose running summary reaches
the target, with the summary offset before it. -/
def childAtOffset (llen : L → Nat) : List (GNode L) → Nat → Option (Nat × Nat)
  | [], _ => none
  | c :: cs, t =>
    let m := nodeSummary llen c
    if m ≥ t then some (0, 0)
    else
      match childAtOffset llen cs (t - m) with
      | some (i, off) => some (i + 1, m + off)
      | none => none

/-- The result of `insert::insert_at_offset`: the new subtree, a possible
split inode to hand to the parent, the handles of up to two new leaves, and
the value stored into `last_insertion_cache`. -/
structure InsResult (L : Type) where
  node : GNode L
  split : Option (Nat × List (GNode L))
  idx1 : Option Nat
  idx2 : Option Nat
  cache : Option (Nat × Nat)

/-- Mirrors `insert::insert_at_offset`, with the summary bookkeeping of
`with_internal_mut_handle_split` and `with_leaf_mut_handle_split` inlined.
`leafOff` accumulates the summary offset and `leafPos` the leaf-count offset
of the subtree. -/
def insAux (llen : L → Nat) (arity : Nat)
    (f : L → Nat → L × Option L × Option L) :
    GNode L → Nat → Nat → Nat → InsResult L
  | .leafN v, _, _, _ => ⟨.leafN v, none, none, none, none⟩
  | .inode s cs, leafOff, leafPos, atOff =>
    match childAtOffset llen cs (atOff - leafOff) with
    | none => ⟨.inode s cs, none, none, none, none⟩
    | some (i, off) =>
      let leafOff2 := leafOff + off
      let pos := leafPos + countLeavesList (cs.take i)
      match hc : cs[i]? with
      | none => ⟨.inode s cs, none, none, none, none⟩
      | some child =>
        match child with
        | .inode s0 cs0 =>
          let res := insAux llen arity f (.inode s0 cs0) leafOff2 pos atOff
          let s2 := s - nodeSummary llen (.inode s0 cs0) + nodeSummary llen res.node
          let cs2 := cs.set i res.node
          match res.split with
          | none => ⟨.inode s2 cs2, none, res.idx1, res.idx2, res.cache⟩
          | some sp =>
            let (left, topSplit) :=
              insertInInode llen arity s2 cs2 (i + 1) (GNode.inode sp.1 sp.2) sp.1
            ⟨.inode left.1 left.2, topSplit, res.idx1, res.idx2, res.cache⟩
        | .leafN lv =>
          let (lv2, n1, n2) := f lv (atOff - leafOff2)
          let s2 := s - llen lv + llen lv2
          let cs2 := cs.set i (.leafN lv2)
          match n1, n2 with
          | some a, some b =>
            let (left, topSplit) := insertTwoInInode llen arity s2 cs2
              (i + 1) (.leafN a) (llen a) (i + 1) (.leafN b) (llen b)
            ⟨.inode left.1 left.2, topSplit, some (pos + 1), some (pos + 2),
              if atOff = 0 then none else some (pos + 1, leafOff2 + llen lv2)⟩
          | some a, none =>
            let (left, topSplit) := insertInInode llen arity s2 cs2
              (i + 1) (.leafN a) (llen a)
            ⟨.inode left.1 left.2, topSplit, some (pos + 1), none,
              if atOff = 0 then none else some (pos + 1, leafOff2 + llen lv2)⟩
          | none, _ =>
            ⟨.inode s2 cs2, none, none, none,
              if atOff = 0 then none else some (pos, leafOff2)⟩
termination_by n _ _ _ => sizeOf n
decreasing_by
  all_goals
    have hm := List.sizeOf_lt_of_mem (List.getElem?_mem hc)
    simp only [GNode.inode.sizeOf_spec] at hm ⊢
    omega

/-- The Gtree with its one-slot last-insertion cache. -/
structure GtreeM (L : Type) where
  root : GNode L
  last_insertion_cache : Option (Nat × Nat)

/-- Mirrors `Gtree::insert_at_offset`: runs the recursive insertion from the root and
creates a new root when the old one splits. -/
def insertAtOffsetT (llen : L → Nat) (arity : Nat) (t : GtreeM L)
    (offset : Nat) (f : L → Nat → L × Option L × Option L) :
    GtreeM L × (Option Nat × Option Nat) :=
  let res := insAux llen arity f t.root 0 0 offset
  let root2 :=
    match res.split with
    | none => res.node
    | some sp => rootHasSplit llen res.node (GNode.inode sp.1 sp.2)
  (⟨root2, res.cache⟩, (res.idx1, res.idx2))

mutual
/-- Mutation of the `pos`-th leaf through its stable handle, with the summary
patch applied to every node on the parent chain (`insert_at_leaf`'s non-split
path). -/
def patchLeafAt (llen : L → Nat) : GNode L → Nat → L → GNode L
  | .leafN v, p, nv => if p = 0 then .leafN nv else .leafN v
  | .inode s cs, p, nv =>
    match (leavesList cs)[p]? with
    | none => .inode s cs
    | some old => .inode (s - llen old + llen nv) (patchList llen cs p nv)
/-- The child list with the `p`-th leaf below it patched. -/
def patchList (llen : L → Nat) : List (GNode L) → Nat → L → List (GNode L)
  | [], _, _ => []
  | c :: cs, p, nv =>
    if p < countLeaves c then patchLeafAt llen c p nv :: cs
    else c :: patchList llen cs (p - countLeaves c) nv
end

/-- Mirrors `Gtree::insert_at_leaf`: mutates the cached leaf in place; when the
mutation produces a new leaf, the old value is restored and the insertion is
replayed through `insert_at_offset` (which recomputes the cache). -/
def insertAtLeafT (llen : L → Nat) (arity : Nat) (t : GtreeM L)
    (pos leafOffS offset : Nat) (f : L → Nat → L × Option L × Option L) :
    GtreeM L × (Option Nat × Option Nat) :=
  match (leavesOf t.root)[pos]? with
  | none => (t, (none, none))
  | some lv =>
    let (lv2, n1, n2) := f lv (offset - leafOffS)
    if n1.isSome then
      insertAtOffsetT llen arity { t with last_insertion_cache := none }
        offset (fun _ _ => (lv2, n1, n2))
    else
      ({ root := patchLeafAt llen t.root pos lv2,
         last_insertion_cache := t.last_insertion_cache }, (none, none))

/-- Mirrors `Gtree::insert`: takes the cached path when the offset lands strictly
inside `(cached offset, cached offset + leaf length]`, and descends from the
root otherwise. -/
def GtreeM.insert (llen : L → Nat) (arity : Nat) (t : GtreeM L) (offset : Nat)
    (f : L → Nat → L × Option L × Option L) :
    GtreeM L × (Option Nat × Option Nat) :=
  match t.last_insertion_cache with
  | some (pos, leafOffS) =>
    match (leavesOf t.root)[pos]? with
    | some lv =>
      if leafOffS < offset ∧ offset ≤ leafOffS + llen lv then
        insertAtLeafT llen arity t pos leafOffS offset f
      else insertAtOffsetT llen arity t offset f
    | none => insertAtOffsetT llen arity t offset f
  | none => insertAtOffsetT llen arity t offset f

/-- Mirrors `Gtree::delete_child` on one child: an internal child has its stored
summary zeroed, a leaf child is deleted via its `Delete` implementation. -/
def deleteChildNode (ldel : L → L) : GNode L → GNode L
  | .inode _ cs => .inode 0 cs
  | .leafN v => .leafN (ldel v)

/-- Mirrors `delete_child` applied to every child from index `j` on; the parent
summary loses the children's old summaries. -/
def deleteChildrenFrom (llen : L → Nat) (ldel : L → L) (s : Nat)
    (cs : List (GNode L)) (j : Nat) : Nat × List (GNode L) :=
  (s - sumNS llen (cs.drop j), cs.take j ++ (cs.drop j).map (deleteChildNode ldel))

/-- Mirrors `delete_child` applied to every child before index `i`. -/
def deleteChildrenUpTo (llen : L → Nat) (ldel : L → L) (s : Nat)
    (cs : List (GNode L)) (i : Nat) : Nat × List (GNode L) :=
  (s - sumNS llen (cs.take i), (cs.take i).map (deleteChildNode ldel) ++ cs.drop i)

/-- The first child whose running summary exceeds the target (the scan of
`delete::delete_from` and the first loop of `delete_range_in_inode`). -/
def firstChildOver (llen : L → Nat) : List (GNode L) → Nat → Option (Nat × Nat)
  | [], _ => none
  | c :: cs, t =>
    let m := nodeSummary llen c
    if m > t then some (0, 0)
    else
      match firstChildOver llen cs (t - m) with
      | some (i, off) => some (i + 1, m + off)
      | none => none

/-- Mirrors `Gtree::child_containing_range`: the child that fully contains the range,
with its length offset. -/
def childContainingRange (llen : L → Nat) :
    List (GNode L) → Nat → Nat → Option (Nat × Nat)
  | [], _, _ => none
  | c :: cs, rs, re =>
    let m := nodeSummary llen c
    if m > rs then
      if m ≥ re then some (0, 0) else none
    else
      match childContainingRange llen cs (rs - m) (re - m) with
      | some (i, off) => some (i + 1, m + off)
      | none => none

/-- Mirrors `delete::delete_from`: deletes everything after the given length in the
subtree.  Children past the target child are deleted outright; the target
child is descended into, splits being re-inserted next to it. -/
def delFromAux (llen : L → Nat) (arity : Nat) (ldel : L → L)
    (ff : L → Nat → L × Option L) :
    GNode L → Nat → (GNode L × Option (Nat × List (GNode L))) × Option L
  | .leafN v, _ => ((.leafN v, none), none)
  | .inode s cs, t =>
    match firstChildOver llen cs t with
    | none => ((.inode s cs, none), none)
    | some (i, off) =>
      let t2 := t - off
      match hc : cs[i]? with
      | none => ((.inode s cs, none), none)
      | some child =>
        let (s1, cs1) := deleteChildrenFrom llen ldel s cs (i + 1)
        match child with
        | .inode s0 cs0 =>
          let ((child2, csplit), res) := delFromAux llen arity ldel ff (.inode s0 cs0) t2
          let s2 := s1 - nodeSummary llen (.inode s0 cs0) + nodeSummary llen child2
          let cs2 := cs1.set i child2
          match csplit with
          | none => ((.inode s2 cs2, none), res)
          | some sp =>
            let (left, topSplit) :=
              insertInInode llen arity s2 cs2 (i + 1) (GNode.inode sp.1 sp.2) sp.1
            ((.inode left.1 left.2, topSplit), res)
        | .leafN lv =>
          let (lv2, n1) := ff lv t2
          let s2 := s1 - llen lv + llen lv2
          let cs2 := cs1.set i (.leafN lv2)
          match n1 with
          | some a =>
            let (left, topSplit) :=
              insertInInode llen arity s2 cs2 (i + 1) (.leafN a) (llen a)
            ((.inode left.1 left.2, topSplit), some a)
          | none => ((.inode s2 cs2, none), none)
termination_by n _ => sizeOf n
decreasing_by
  all_goals
    have hm := List.sizeOf_lt_of_mem (List.getElem?_mem hc)
    simp only [GNode.inode.sizeOf_spec] at hm ⊢
    omega

/-- Mirrors `delete::delete_up_to`: deletes everything up to the given length.
Children before the target child are deleted outright. -/
def delUpToAux (llen : L → Nat) (arity : Nat) (ldel : L → L)
    (fu : L → Nat → L × Option L) :
    GNode L → Nat → (GNode L × Option (Nat × List (GNode L))) × Option L
  | .leafN v, _ => ((.leafN v, none), none)
  | .inode s cs, t =>
    match childAtOffset llen cs t with
    | none => ((.inode s cs, none), none)
    | some (i, off) =>
      let t2 := t - off
      match hc : cs[i]? with
      | none => ((.inode s cs, none), none)
      | some child =>
        let (s1, cs1) := deleteChildrenUpTo llen ldel s cs i
        match child with
        | .inode s0 cs0 =>
          let ((child2, csplit), res) := delUpToAux llen arity ldel fu (.inode s0 cs0) t2
          let s2 := s1 - nodeSummary llen (.inode s0 cs0) + nodeSummary llen child2
          let cs2 := cs1.set i child2
          match csplit with
          | none => ((.inode s2 cs2, none), res)
          | some sp =>
            let (left, topSplit) :=
              insertInInode llen arity s2 cs2 (i + 1) (GNode.inode sp.1 sp.2) sp.1
            ((.inode left.1 left.2, topSplit), res)
        | .leafN lv =>
          let (lv2, n1) := fu lv t2
          let s2 := s1 - llen lv + llen lv2
          let cs2 := cs1.set i (.leafN lv2)
          match n1 with
          | some a =>
            let (left, topSplit) :=
              insertInInode llen arity s2 cs2 (i + 1) (.leafN a) (llen a)
            ((.inode left.1 left.2, topSplit), some a)
          | none => ((.inode s2 cs2, none), none)
termination_by n _ => sizeOf n
decreasing_by
  all_goals
    have hm := List.sizeOf_lt_of_mem (List.getElem?_mem hc)
    simp only [GNode.inode.sizeOf_spec] at hm ⊢
    omega

/-- Mirrors `Gtree::delete_child` at a single index of a child list. -/
def deleteChild0 (llen : L → Nat) (ldel : L → L) (s : Nat)
    (cs : List (GNode L)) (k : Nat) : Nat × List (GNode L) :=
  match cs[k]? with
  | none => (s, cs)
  | some c => (s - nodeSummary llen c, cs.set k (deleteChildNode ldel c))

/-- Mirrors `delete_child` applied to every child with index strictly between `i` and
`j` (the second loop of `delete_range_in_inode`). -/
def deleteChildrenBetween (llen : L → Nat) (ldel : L → L) (s : Nat)
    (cs : List (GNode L)) (i j : Nat) : Nat × List (GNode L) :=
  let mids := (cs.drop (i + 1)).take (j - i - 1)
  (s - sumNS llen mids,
    cs.take (i + 1) ++ mids.map (deleteChildNode ldel) ++ cs.drop j)

/-- The boundary child containing the range start in
`delete_range_in_inode`: descend with `delete_from` (internal) or apply the
`del_from` closure (leaf), producing the updated child, a possible extra node
to insert next to it, and the handle of a created leaf. -/
def delRangeStartChild (llen : L → Nat) (arity : Nat) (ldel : L → L)
    (ff : L → Nat → L × Option L) (child : GNode L) (t : Nat) :
    GNode L × Option (GNode L) × Option L :=
  match child with
  | .inode s0 cs0 =>
    let ((child2, csplit), res) := delFromAux llen arity ldel ff (.inode s0 cs0) t
    (child2, csplit.map (fun sp => GNode.inode sp.1 sp.2), res)
  | .leafN lv =>
    let (lv2, n1) := ff lv t
    (.leafN lv2, n1.map (fun a => GNode.leafN a), n1)

/-- The boundary child containing the range end, via `delete_up_to`. -/
def delRangeEndChild (llen : L → Nat) (arity : Nat) (ldel : L → L)
    (fu : L → Nat → L × Option L) (child : GNode L) (t : Nat) :
    GNode L × Option (GNode L) × Option L :=
  match child with
  | .inode s0 cs0 =>
    let ((child2, csplit), res) := delUpToAux llen arity ldel fu (.inode s0 cs0) t
    (child2, csplit.map (fun sp => GNode.inode sp.1 sp.2), res)
  | .leafN lv =>
    let (lv2, n1) := fu lv t
    (.leafN lv2, n1.map (fun a => GNode.leafN a), n1)

/-- Mirrors `delete::delete_range_in_inode`: the range spans several children of this
inode.  The child containing the range start is cut from the start offset on,
the children strictly between are deleted outright, the child containing the
range end is cut up to the end offset, and the nodes produced at the two
boundaries are re-inserted after their children, possibly splitting this
inode. -/
def delRangeInInode (llen : L → Nat) (arity : Nat) (ldel : L → L)
    (ff fu : L → Nat → L × Option L) (s : Nat) (cs : List (GNode L))
    (rs re : Nat) :
    (GNode L × Option (Nat × List (GNode L))) × Option L × Option L :=
  match firstChildOver llen cs rs with
  | none => ((.inode s cs, none), none, none)
  | some (i, offS) =>
    match cs[i]? with
    | none => ((.inode s cs, none), none, none)
    | some cStart =>
      match childAtOffset llen (cs.drop (i + 1))
          (re - (offS + nodeSummary llen cStart)) with
      | none => ((.inode s cs, none), none, none)
      | some (j0, offE0) =>
        let j := i + 1 + j0
        match cs[j]? with
        | none => ((.inode s cs, none), none, none)
        | some cEnd =>
          let (startChild, extraStart, res1) :=
            delRangeStartChild llen arity ldel ff cStart (rs - offS)
          let offE := offS + nodeSummary llen cStart + offE0
          let (endChild, extraEnd, res2) :=
            delRangeEndChild llen arity ldel fu cEnd (re - offE)
          let s1 := s - nodeSummary llen cStart + nodeSummary llen startChild
          let s2 := s1 - nodeSummary llen cEnd + nodeSummary llen endChild
          let cs2 := (cs.set i startChild).set j endChild
          let (s3, cs3) := deleteChildrenBetween llen ldel s2 cs2 i j
          match extraStart, extraEnd with
          | some es, some ee =>
            let (left, topSplit) := insertTwoInInode llen arity s3 cs3
              (i + 1) es (nodeSummary llen es) (j + 1) ee (nodeSummary llen ee)
            ((.inode left.1 left.2, topSplit), res1, res2)
          | some es, none =>
            let (left, topSplit) :=
              insertInInode llen arity s3 cs3 (i + 1) es (nodeSummary llen es)
            ((.inode left.1 left.2, topSplit), res1, res2)
          | none, some ee =>
            let (left, topSplit) :=
              insertInInode llen arity s3 cs3 (j + 1) ee (nodeSummary llen ee)
            ((.inode left.1 left.2, topSplit), res1, res2)
          | none, none => ((.inode s3 cs3, none), res1, res2)

/-- Mirrors `delete::delete_range`: descends into the single child containing the
range if one exists, and falls back to `delete_range_in_inode` otherwise. -/
def delRangeAux (llen : L → Nat) (arity : Nat) (ldel : L → L)
    (fr : L → Nat → Nat → L × Option L × Option L)
    (ff fu : L → Nat → L × Option L) :
    GNode L → Nat → Nat → (GNode L × Option (Nat × List (GNode L))) × Option L × Option L
  | .leafN v, _, _ => ((.leafN v, none), none, none)
  | .inode s cs, rs, re =>
    match childContainingRange llen cs rs re with
    | none => delRangeInInode llen arity ldel ff fu s cs rs re
    | some (i, off) =>
      let rs2 := rs - off
      let re2 := re - off
      match hc : cs[i]? with
      | none => ((.inode s cs, none), none, none)
      | some child =>
        match child with
        | .inode s0 cs0 =>
          let ((child2, csplit), res1, res2) :=
            delRangeAux llen arity ldel fr ff fu (.inode s0 cs0) rs2 re2
          let s2 := s - nodeSummary llen (.inode s0 cs0) + nodeSummary llen child2
          let cs2 := cs.set i child2
          match csplit with
          | none => ((.inode s2 cs2, none), res1, res2)
          | some sp =>
            let (left, topSplit) :=
              insertInInode llen arity s2 cs2 (i + 1) (GNode.inode sp.1 sp.2) sp.1
            ((.inode left.1 left.2, topSplit), res1, res2)
        | .leafN lv =>
          let (lv2, n1, n2) := fr lv rs2 re2
          let s2 := s - llen lv + llen lv2
          let cs2 := cs.set i (.leafN lv2)
          match n1, n2 with
          | some a, some b =>
            let (left, topSplit) := insertTwoInInode llen arity s2 cs2
              (i + 1) (.leafN a) (llen a) (i + 1) (.leafN b) (llen b)
            ((.inode left.1 left.2, topSplit), some a, some b)
          | some a, none =>
            let (left, topSplit) :=
              insertInInode llen arity s2 cs2 (i + 1) (.leafN a) (llen a)
            ((.inode left.1 left.2, topSplit), some a, none)
          | none, _ => ((.inode s2 cs2, none), none, none)
termination_by n _ _ => sizeOf n
decreasing_by
  all_goals
    have hm := List.sizeOf_lt_of_mem (List.getElem?_mem hc)
    simp only [GNode.inode.sizeOf_spec] at hm ⊢
    omega

/-- Mirrors `Gtree::delete_range`: runs the recursive deletion, creates a new root on
a root split, and unconditionally invalidates the last-insertion cache. -/
def GtreeM.deleteRange (llen : L → Nat) (arity : Nat) (ldel : L → L)
    (t : GtreeM L) (rs re : Nat)
    (fr : L → Nat → Nat → L × Option L × Option L)
    (ff fu : L → Nat → L × Option L) :
    GtreeM L × (Option L × Option L) :=
  let ((root2, sp), res) := delRangeAux llen arity ldel fr ff fu t.root rs re
  let root3 :=
    match sp with
    | none => root2
    | some sp2 => rootHasSplit llen root2 (GNode.inode sp2.1 sp2.2)
  ({ root := root3, last_insertion_cache := none }, res)

def childrenOf {L : Type} : GNode L → List (GNode L)
  | .leafN _ => []
  | .inode _ cs => cs

def c6cs : List (GNode Nat) := [.leafN 1, .leafN 2, .leafN 3, .leafN 4]

def sumL (llen : L → Nat) (xs : List L) : Nat := (xs.map llen).sum

def prefL (llen : L → Nat) (xs : List L) (p : Nat) : Nat :=
  sumL llen (xs.take p)

end GT

namespace Cola

/-- Claim C1: concurrent insertions sharing the same anchor are ordered by
higher lamport_ts first, ties broken by higher replica id: for R1 = new(1,0),
R2 = R1.fork(2), ins1 = R1.inserted(0,1), ins2 = R2.inserted(0,1), the two
runs get equal Lamport timestamps, after cross-integration both replicas have
length 2, and on both the character at offset 0 comes from R2, the replica
with the higher id. -/
theorem claim1 :
    (tieP1.2.lamport_ts = tieP2.2.lamport_ts)
    ∧ (tieQ1.1.len = 2 ∧ tieQ2.1.len = 2)
    ∧ (tieQ1.2 = some 0 ∧ tieQ2.2 = some 1)
    ∧ ((tieQ1.1.run_tree.charAt 0).map Prod.fst = some 2
        ∧ (tieQ2.1.run_tree.charAt 0).map Prod.fst = some 2) := by decide

/-- Claim C2: for every replica and non-no-op, not-already-merged Insertion,
integrate_insertion applies it and returns some offset iff
version_map[inserter] = insertion.start and
version_map[anchor.replica_id] >= anchor.offset; otherwise the insertion is
stored in the backlog and none is returned, the rest of the state unchanged:
it is never rejected. -/
theorem claim2 (r : Replica) (i : Insertion)
    (h1 : ¬ i.is_no_op) (h2 : ¬ r.has_merged_insertion i) :
    (r.version_map.get i.inserted_by = i.run_start ∧
        i.anchor.offset ≤ r.version_map.get i.anchor.replica_id →
      r.integrate_insertion i =
        ((r.merge_unchecked_insertion i).1, some (r.merge_unchecked_insertion i).2))
    ∧ (¬ (r.version_map.get i.inserted_by = i.run_start ∧
          i.anchor.offset ≤ r.version_map.get i.anchor.replica_id) →
      r.integrate_insertion i =
        ({ r with backlog := r.backlog.insert_insertion i }, none))
    ∧ ((r.integrate_insertion i).2.isSome ↔
        (r.version_map.get i.inserted_by = i.run_start ∧
          i.anchor.offset ≤ r.version_map.get i.anchor.replica_id)) := by
  have hcond : (r.version_map.get i.inserted_by = i.run_start ∧
      i.anchor.offset ≤ r.version_map.get i.anchor.replica_id) ↔
      r.can_merge_insertion i := by
    unfold Replica.can_merge_insertion Replica.has_anchor; tauto
  have hno : ¬ (i.is_no_op ∨ r.has_merged_insertion i) := by tauto
  refine ⟨?_, ?_, ?_⟩
  · intro hc
    simp only [Replica.integrate_insertion, if_neg hno, if_pos (hcond.mp hc)]
  · intro hc
    simp only [Replica.integrate_insertion, if_neg hno,
      if_neg (fun h => hc (hcond.mpr h))]
  · by_cases hc : r.can_merge_insertion i
    · simp only [Replica.integrate_insertion, if_neg hno, if_pos hc,
        Option.isSome_some, true_iff]
      exact hcond.mpr hc
    · simp only [Replica.integrate_insertion, if_neg hno, if_neg hc,
        Option.isSome_none, Bool.false_eq_true, false_iff]
      exact fun h => hc (hcond.mp h)

theorem assocSet_lookup (l : List (Nat × Nat)) (id v : Nat) :
    (assocSet l id v).lookup id = some v := by
  induction l with
  | nil => simp [assocSet, List.lookup]
  | cons kv rest ih =>
    obtain ⟨k, w⟩ := kv
    unfold assocSet
    by_cases h : k = id
    · simp [h, List.lookup]
    · have hne : (id == k) = false := by
        simp [Ne.symm h]
      simp only [if_neg h, List.lookup, hne]
      exact ih

theorem BaseMap.get_update_self (m : BaseMap) (id v : Nat) :
    (m.update id v).get id = v := by
  unfold BaseMap.update BaseMap.get
  by_cases h : id = m.this_id
  · simp [h]
  · simp [h, assocSet_lookup]

theorem lookup_eq_none_of_not_mem (l : List (Nat × Nat)) (id : Nat)
    (h : id ∉ l.map Prod.fst) : l.lookup id = none := by
  induction l with
  | nil => rfl
  | cons kv rest ih =>
    obtain ⟨k, w⟩ := kv
    simp only [List.map, List.mem_cons, not_or] at h
    have hne : (id == k) = false := by
      simp
      exact h.1
    simp only [List.lookup, hne]
    exact ih h.2

theorem BaseMap.geAll_iff (a b : BaseMap) :
    a.geAll b ↔ ∀ id, b.get id ≤ a.get id := by
  constructor
  · intro h id
    by_cases hk : id ∈ b.keys
    · exact h id hk
    · have h0 : b.get id = 0 := by
        unfold BaseMap.keys at hk
        simp only [List.mem_cons, not_or] at hk
        unfold BaseMap.get
        rw [if_neg hk.1, lookup_eq_none_of_not_mem _ _ hk.2]
        rfl
      omega
  · intro h k _
    exact h k

theorem insertSortedDel_length (l : List Deletion) (d : Deletion) :
    (insertSortedDel l d).length = l.length + 1 := by
  induction l with
  | nil => rfl
  | cons e rest ih =>
    unfold insertSortedDel
    split
    · simp
    · simp [ih]

/-- Claim C3: for every replica and non-no-op Deletion, integrate_deletion
applies it iff deletion_map[deleter] + 1 = deletion_ts and the local
version map is pointwise >= the deletion's snapshot; and it is treated as
already merged (empty range list, state unchanged) exactly when the strict
inequality deletion_map[deleter] + 1 > deletion_ts holds. -/
theorem claim3 (r : Replica) (d : Deletion) (h1 : ¬ d.is_no_op) :
    (r.deletion_map.get d.deleted_by + 1 = d.deletion_ts ∧
        (∀ id, d.version_map.get id ≤ r.version_map.get id) →
      r.integrate_deletion d = r.merge_unchecked_deletion d)
    ∧ (d.deletion_ts < r.deletion_map.get d.deleted_by + 1 ↔
        r.integrate_deletion d = (r, []))
    ∧ (¬ r.has_merged_deletion d → ¬ r.can_merge_deletion d →
      r.integrate_deletion d =
        ({ r with backlog := r.backlog.insert_deletion d }, [])) := by
  refine ⟨?_, ?_, ?_⟩
  · rintro ⟨hts, hvm⟩
    have hcan : r.can_merge_deletion d :=
      ⟨hts, (BaseMap.geAll_iff _ _).mpr hvm⟩
    have hnm : ¬ (d.is_no_op ∨ r.has_merged_deletion d) := by
      rintro (h | h)
      · exact h1 h
      · unfold Replica.has_merged_deletion at h; omega
    simp only [Replica.integrate_deletion, if_neg hnm, if_pos hcan]
  · constructor
    · intro hlt
      have hm : r.has_merged_deletion d := by
        unfold Replica.has_merged_deletion; omega
      simp only [Replica.integrate_deletion, if_pos (Or.inr hm)]
    · intro heq
      by_cases hm : r.has_merged_deletion d
      · unfold Replica.has_merged_deletion at hm; omega
      · exfalso
        have hnm : ¬ (d.is_no_op ∨ r.has_merged_deletion d) := by tauto
        by_cases hc : r.can_merge_deletion d
        · simp only [Replica.integrate_deletion, if_neg hnm, if_pos hc] at heq
          have hgt : (r.merge_unchecked_deletion d).1.deletion_map.get d.deleted_by
              = d.deletion_ts := by
            unfold Replica.merge_unchecked_deletion
            exact BaseMap.get_update_self _ _ _
          rw [heq] at hgt
          have hgt2 : r.deletion_map.get d.deleted_by = d.deletion_ts := hgt
          have hts := hc.1
          omega
        · simp only [Replica.integrate_deletion, if_neg hnm, if_neg hc] at heq
          have hb : r.backlog.insert_deletion d = r.backlog := by
            have := congrArg (fun p => (Prod.fst p).backlog) heq
            simpa using this
          have hlen : (insertSortedDel r.backlog.deletions d).length =
              r.backlog.deletions.length := by
            have := congrArg Backlog.deletions hb
            simp only [Backlog.insert_deletion] at this
            rw [this]
          rw [insertSortedDel_length] at hlen
          omega
  · intro hm hc
    have hnm : ¬ (d.is_no_op ∨ r.has_merged_deletion d) := by tauto
    simp only [Replica.integrate_deletion, if_neg hnm, if_neg hc]

/-- Claim C4 (corrected): after integrate_insertion applies a ready
Insertion, the Lamport clock equals max(local, lamport_ts + 1), not always
max(local, lamport_ts) + 1 as claimed: LamportClock::merge only advances the
clock when the remote timestamp is at least the local value. -/
theorem claim4_lamport (r : Replica) (i : Insertion)
    (h1 : ¬ i.is_no_op) (h2 : ¬ r.has_merged_insertion i)
    (h3 : r.can_merge_insertion i) :
    ((r.integrate_insertion i).1.lamport_clock).ts =
      max r.lamport_clock.ts (i.lamport_ts + 1) := by
  have hno : ¬ (i.is_no_op ∨ r.has_merged_insertion i) := by tauto
  simp only [Replica.integrate_insertion, if_neg hno, if_pos h3,
    Replica.merge_unchecked_insertion, LamportClock.merge]
  split
  · rename_i hge
    show i.lamport_ts + 1 = max r.lamport_clock.ts (i.lamport_ts + 1)
    omega
  · rename_i hlt
    show r.lamport_clock.ts = max r.lamport_clock.ts (i.lamport_ts + 1)
    omega
/-- Counterexample to claim C4 as stated: a replica with clock 3 integrates
a ready insertion with timestamp 1 and its clock stays 3, while the claim
demands max(3, 1) + 1 = 4. All hypotheses of the claim hold and are checked
concretely. -/
theorem claim4_counterexample :
    ¬ cxIns1.is_no_op ∧ ¬ cxB.has_merged_insertion cxIns1
    ∧ cxB.can_merge_insertion cxIns1
    ∧ ((cxB.integrate_insertion cxIns1).2).isSome
    ∧ ((cxB.integrate_insertion cxIns1).1.lamport_clock).ts ≠
        (max cxB.lamport_clock.ts cxIns1.lamport_ts) + 1 := by decide

/-- Witness for the corrected C4 at a concrete ready insertion. -/
theorem claim4_witness :
    ¬ tieP2.2.is_no_op ∧ ¬ tieP1.1.has_merged_insertion tieP2.2
    ∧ tieP1.1.can_merge_insertion tieP2.2
    ∧ ((tieP1.1.integrate_insertion tieP2.2).1.lamport_clock).ts =
        max tieP1.1.lamport_clock.ts (tieP2.2.lamport_ts + 1) :=
  ⟨by decide, by decide, by decide,
    claim4_lamport tieP1.1 tieP2.2 (by decide) (by decide) (by decide)⟩

/-- Claim C8: inserted(offset, 0) and deleted(s, s) return the explicit
no-op sentinels and leave the replica unchanged; integrating a no-op returns
none (respectively an empty range list) and leaves the receiver unchanged. -/
theorem claim8 (r : Replica) (off s : Nat) (i : Insertion) (d : Deletion)
    (hoff : off ≤ r.len) (hs : s ≤ r.len) (hi : i.is_no_op) (hd : d.is_no_op) :
    r.inserted off 0 = some (r, Insertion.no_op)
    ∧ r.deleted s s = some (r, Deletion.no_op)
    ∧ r.integrate_insertion i = (r, none)
    ∧ r.integrate_deletion d = (r, []) := by
  refine ⟨?_, ?_, ?_, ?_⟩
  · unfold Replica.inserted
    have hng : ¬ (off > r.len) := by omega
    rw [if_neg hng, if_pos rfl]
  · unfold Replica.deleted
    have h1 : ¬ (s > r.len) := by omega
    have h2 : ¬ (s > s) := by omega
    rw [if_neg h1, if_neg h2, if_pos rfl]
  · unfold Replica.integrate_insertion
    rw [if_pos (Or.inl hi)]
  · unfold Replica.integrate_deletion
    rw [if_pos (Or.inl hd)]

/-- Witness for C8 at a concrete replica with four characters. -/
theorem claim8_witness :
    tieR1.inserted 0 0 = some (tieR1, Insertion.no_op)
    ∧ tieR1.deleted 0 0 = some (tieR1, Deletion.no_op)
    ∧ tieR1.integrate_insertion Insertion.no_op = (tieR1, none)
    ∧ tieR1.integrate_deletion Deletion.no_op = (tieR1, []) :=
  claim8 tieR1 0 0 Insertion.no_op Deletion.no_op (by decide) (by decide)
    (by decide) (by decide)

theorem decodeInt_encodeInt (n : Nat) (rest : List Nat) :
    decodeInt (encodeInt n ++ rest) = some (n, rest) := by
  induction n using Nat.strong_induction_on with
  | _ n ih =>
    unfold encodeInt
    by_cases h : n < 128
    · simp [h, decodeInt]
    · rw [dif_neg h]
      simp only [List.cons_append, decodeInt]
      rw [if_neg (by omega)]
      simp only [List.append_eq, ih (n / 128) (Nat.div_lt_self (by omega) (by omega))]
      have he : n / 128 * 128 + (n % 128 + 128 - 128) = n := by omega
      rw [he]

theorem decodeBool_encodeBool (b : Bool) (rest : List Nat) :
    decodeBool (encodeBool b ++ rest) = some (b, rest) := by
  cases b <;> simp [encodeBool, decodeBool]

theorem decodeCount_encode {α : Type} (g : α → List Nat)
    (dg : List Nat → Option (α × List Nat))
    (hg : ∀ x rest, dg (g x ++ rest) = some (x, rest)) :
    ∀ (xs : List α) (rest : List Nat),
      decodeCount dg xs.length (xs.foldr (fun x acc => g x ++ acc) [] ++ rest) =
        some (xs, rest) := by
  intro xs
  induction xs with
  | nil => intro rest; simp [decodeCount]
  | cons x xs ih =>
    intro rest
    simp only [List.foldr, List.length_cons, decodeCount, List.append_assoc, hg]
    rw [ih]

theorem decodeListWith_encode {α : Type} (g : α → List Nat)
    (dg : List Nat → Option (α × List Nat))
    (hg : ∀ x rest, dg (g x ++ rest) = some (x, rest))
    (xs : List α) (rest : List Nat) :
    decodeListWith dg (encodeListWith g xs ++ rest) = some (xs, rest) := by
  unfold encodeListWith decodeListWith
  rw [List.append_assoc, decodeInt_encodeInt]
  exact decodeCount_encode g dg hg xs rest

theorem InnerAnchor.decode_encode_ia (a : InnerAnchor) (rest : List Nat) :
    InnerAnchor.decode (a.encode ++ rest) = some (a, rest) := by
  unfold InnerAnchor.encode InnerAnchor.decode
  simp only [List.append_assoc, decodeInt_encodeInt]

theorem Text.decode_encode_text (t : Text) (rest : List Nat) :
    Text.decode (t.encode ++ rest) = some (t, rest) := by
  unfold Text.encode Text.decode
  simp only [List.append_assoc, decodeInt_encodeInt]

theorem EditRun.decode_encode_run (r : EditRun) (rest : List Nat) :
    EditRun.decode (r.encode ++ rest) = some (r, rest) := by
  unfold EditRun.encode EditRun.decode
  simp only [List.append_assoc, Text.decode_encode_text, decodeInt_encodeInt,
    InnerAnchor.decode_encode_ia, decodeBool_encodeBool]

theorem RunTree.decode_encode_tree (t : RunTree) (rest : List Nat) :
    RunTree.decode (t.encode ++ rest) = some (t, rest) := by
  unfold RunTree.encode RunTree.decode
  rw [decodeListWith_encode EditRun.encode EditRun.decode EditRun.decode_encode_run]

theorem LamportClock.decode_encode_clock (c : LamportClock) (rest : List Nat) :
    LamportClock.decode (c.encode ++ rest) = some (c, rest) := by
  unfold LamportClock.encode LamportClock.decode
  simp only [decodeInt_encodeInt]

theorem decodePair_encode (kv : Nat × Nat) (rest : List Nat) :
    decodePair ((encodeInt kv.1 ++ encodeInt kv.2) ++ rest) = some (kv, rest) := by
  unfold decodePair
  simp only [List.append_assoc, decodeInt_encodeInt]

theorem BaseMap.decode_encode_map (m : BaseMap) (rest : List Nat) :
    BaseMap.decode (m.encode ++ rest) = some (m, rest) := by
  unfold BaseMap.encode BaseMap.decode
  simp only [List.append_assoc, decodeInt_encodeInt]
  rw [decodeListWith_encode (fun kv => encodeInt kv.1 ++ encodeInt kv.2)
    decodePair decodePair_encode]

theorem Insertion.decode_encode_ins (i : Insertion) (rest : List Nat) :
    Insertion.decode (i.encode ++ rest) = some (i, rest) := by
  unfold Insertion.encode Insertion.decode
  simp only [List.append_assoc, InnerAnchor.decode_encode_ia, Text.decode_encode_text,
    decodeInt_encodeInt]

theorem Deletion.decode_encode_del (d : Deletion) (rest : List Nat) :
    Deletion.decode (d.encode ++ rest) = some (d, rest) := by
  unfold Deletion.encode Deletion.decode
  simp only [List.append_assoc, InnerAnchor.decode_encode_ia, BaseMap.decode_encode_map,
    decodeInt_encodeInt]

theorem Backlog.decode_encode_backlog (bl : Backlog) (rest : List Nat) :
    Backlog.decode (bl.encode ++ rest) = some (bl, rest) := by
  unfold Backlog.encode Backlog.decode
  simp only [List.append_assoc,
    decodeListWith_encode Insertion.encode Insertion.decode Insertion.decode_encode_ins,
    decodeListWith_encode Deletion.encode Deletion.decode Deletion.decode_encode_del]

theorem decodeReplicaParts_encodePayload (r : Replica) :
    decodeReplicaParts r.encodePayload =
      some ((r.run_tree, r.lamport_clock, r.version_map, r.deletion_map,
        r.backlog), []) := by
  unfold Replica.encodePayload decodeReplicaParts
  have hb : r.backlog.encode = r.backlog.encode ++ [] := by simp
  rw [hb]
  simp only [List.append_assoc, RunTree.decode_encode_tree, LamportClock.decode_encode_clock,
    BaseMap.decode_encode_map, Backlog.decode_encode_backlog]

theorem to_replica_from_replica (r : Replica) :
    (EncodedReplica.from_replica r).to_replica =
      Except.ok (r.run_tree, r.lamport_clock, r.version_map, r.deletion_map,
        r.backlog) := by
  unfold EncodedReplica.from_replica EncodedReplica.to_replica
  simp only [decodeReplicaParts_encodePayload]
  simp

theorem decode_encode_replica (r : Replica) (nid : Nat) (h1 : nid ≠ 0) :
    Replica.decode nid (Replica.encode r) =
      some (Except.ok
        { id := nid
          run_tree := r.run_tree
          run_clock := RunClock.new
          lamport_clock := r.lamport_clock
          version_map := r.version_map.fork nid 0
          deletion_map := r.deletion_map.fork nid 0
          backlog := r.backlog }) := by
  unfold Replica.decode Replica.encode
  rw [if_neg h1, to_replica_from_replica]

/-- Claim C5: for every replica state and valid fresh id, decoding the
encoding of the state with that id succeeds, and the result is eq_decoded to
fork of the state at that id, with equal clocks and maps. -/
theorem claim5 (r : Replica) (nid : Nat) (h1 : nid ≠ 0) (h2 : nid ≠ r.id) :
    ∃ f d, r.fork nid = some f
      ∧ Replica.decode nid (Replica.encode r) = some (Except.ok d)
      ∧ d.eq_decoded f
      ∧ d.lamport_clock = f.lamport_clock
      ∧ d.run_clock = f.run_clock
      ∧ d.version_map = f.version_map
      ∧ d.deletion_map = f.deletion_map := by
  have hf : r.fork nid = some
      { id := nid
        run_tree := r.run_tree
        run_clock := RunClock.new
        lamport_clock := r.lamport_clock
        version_map := r.version_map.fork nid 0
        deletion_map := r.deletion_map.fork nid 0
        backlog := r.backlog } := by
    unfold Replica.fork
    rw [if_neg h1, if_neg h2]
  exact ⟨_, _, hf, decode_encode_replica r nid h1, ⟨rfl, rfl⟩, rfl, rfl, rfl, rfl⟩

/-- Claim C7: the Replica API panics (modelled: returns none) exactly on id
= 0 for new and decode; new_id = 0 or new_id = self.id for fork; an offset
beyond the current length for create_anchor, inserted and deleted; and a
deletion range with start > end. No other input to these operations panics. -/
theorem claim7 :
    (∀ id len, Replica.new id len = none ↔ id = 0)
    ∧ (∀ id e, Replica.decode id e = none ↔ id = 0)
    ∧ (∀ (r : Replica) nid, r.fork nid = none ↔ nid = 0 ∨ nid = r.id)
    ∧ (∀ (r : Replica) off b, r.create_anchor off b = none ↔ r.len < off)
    ∧ (∀ (r : Replica) off l, r.inserted off l = none ↔ r.len < off)
    ∧ (∀ (r : Replica) s e, r.deleted s e = none ↔ r.len < e ∨ e < s) := by
  refine ⟨?_, ?_, ?_, ?_, ?_, ?_⟩
  · intro id len
    unfold Replica.new
    by_cases h : id = 0
    · simp [h]
    · simp [h]
  · intro id e
    unfold Replica.decode
    by_cases h : id = 0
    · simp [h]
    · rw [if_neg h]
      cases hte : e.to_replica with
      | error err => simp [h]
      | ok v =>
        obtain ⟨rt, lc, vm, dm, bl⟩ := v
        simp [h]
  · intro r nid
    unfold Replica.fork
    by_cases h1 : nid = 0
    · simp [h1]
    · by_cases h2 : nid = r.id
      · simp [h1, h2]
      · simp [h1, h2]
  · intro r off b
    unfold Replica.create_anchor
    by_cases h : off > r.len
    · rw [if_pos h]
      simp
      omega
    · rw [if_neg h]
      simp
      omega
  · intro r off l
    unfold Replica.inserted
    by_cases h : off > r.len
    · rw [if_pos h]
      simp
      omega
    · rw [if_neg h]
      split
      · simp
        omega
      · simp
        omega
  · intro r s e
    unfold Replica.deleted
    by_cases h : e > r.len
    · rw [if_pos h]
      simp
      omega
    · rw [if_neg h]
      by_cases h2 : s > e
      · rw [if_pos h2]
        simp
        omega
      · rw [if_neg h2]
        split
        · simp
          omega
        · simp
          omega

theorem BaseMap.get_fork (m : BaseMap) (nid v i : Nat) :
    (m.fork nid v).get i = if i = nid then v else m.get i := by
  unfold BaseMap.fork BaseMap.get
  by_cases h : i = nid
  · simp [h]
  · simp only [if_neg h]
    by_cases h2 : i = m.this_id
    · simp [h2, List.lookup]
    · have hne : (i == m.this_id) = false := by simp [h2]
      simp only [if_neg h2, List.lookup, hne]

theorem insertWalk_runclock (txt : Text) :
    ∀ (runs : List EditRun) (off : Nat) (rc : RunClock) (lc : LamportClock),
      ((insertWalk txt runs off rc lc).2.2.1).ts ≤ rc.ts + 1 := by
  intro runs
  induction runs with
  | nil =>
    intro off rc lc
    simp [insertWalk, RunClock.next]
  | cons r rest ih =>
    intro off rc lc
    unfold insertWalk
    by_cases h1 : off ≤ r.visibleLen
    · rw [if_pos h1]
      split
      · simp [RunClock.next]
      · split
        · simp [RunClock.next]
        · split
          · simp
          · simp [RunClock.next]
    · rw [if_neg h1]
      have hle := ih (off - r.visibleLen) rc lc
      cases hw : insertWalk txt rest (off - r.visibleLen) rc lc with
      | mk ll p =>
        rw [hw] at hle
        simp only [hw]
        simpa using hle

theorem inserted_run_ts_zero (g : Replica) (hrc : g.run_clock = ⟨0⟩)
    (off l : Nat) (r2 : Replica) (ins : Insertion)
    (h : g.inserted off l = some (r2, ins)) : ins.run_ts = 0 := by
  unfold Replica.inserted at h
  by_cases h1 : off > g.len
  · rw [if_pos h1] at h
    cases h
  · rw [if_neg h1] at h
    by_cases h2 : l = 0
    · rw [if_pos h2] at h
      simp only [Option.some.injEq, Prod.mk.injEq] at h
      rw [← h.2]
      rfl
    · rw [if_neg h2] at h
      unfold RunTree.insert at h
      dsimp only at h
      simp only [Option.some.injEq, Prod.mk.injEq] at h
      have hx := insertWalk_runclock
        (⟨g.id, g.version_map.this_value, g.version_map.this_value + l⟩ : Text)
        g.run_tree.runs off g.run_clock g.lamport_clock
      have h0 : g.run_clock.ts = 0 := by rw [hrc]
      rw [← h.2]
      unfold RunClock.last
      dsimp only
      rw [h0] at hx
      exact Nat.sub_eq_zero_of_le hx

/-- Claim C10: fork with a valid new id (and decode of an encoding, which
goes through the same construction) yields a replica with the same run tree,
backlog and Lamport clock, the run clock reset to zero (so its first new run
gets run timestamp 0), and the version and deletion maps extended with a
fresh zero entry for the new id; fork is pure, so the source replica is
unchanged. -/
theorem claim10 (r : Replica) (nid : Nat) (h1 : nid ≠ 0) (h2 : nid ≠ r.id) :
    ∃ f, r.fork nid = some f
      ∧ f.id = nid
      ∧ f.run_tree = r.run_tree
      ∧ f.backlog = r.backlog
      ∧ f.lamport_clock = r.lamport_clock
      ∧ f.run_clock = ⟨0⟩
      ∧ (∀ i, f.version_map.get i = if i = nid then 0 else r.version_map.get i)
      ∧ (∀ i, f.deletion_map.get i = if i = nid then 0 else r.deletion_map.get i)
      ∧ (∀ off l r2 ins, f.inserted off l = some (r2, ins) → ins.run_ts = 0)
      ∧ (∃ d, Replica.decode nid (Replica.encode r) = some (Except.ok d)
          ∧ d.run_tree = r.run_tree ∧ d.backlog = r.backlog
          ∧ d.lamport_clock = r.lamport_clock ∧ d.run_clock = ⟨0⟩
          ∧ (∀ i, d.version_map.get i = if i = nid then 0 else r.version_map.get i)
          ∧ (∀ i, d.deletion_map.get i =
              if i = nid then 0 else r.deletion_map.get i)) := by
  have hf : r.fork nid = some
      { id := nid
        run_tree := r.run_tree
        run_clock := RunClock.new
        lamport_clock := r.lamport_clock
        version_map := r.version_map.fork nid 0
        deletion_map := r.deletion_map.fork nid 0
        backlog := r.backlog } := by
    unfold Replica.fork
    rw [if_neg h1, if_neg h2]
  refine ⟨_, hf, rfl, rfl, rfl, rfl, rfl,
    fun i => BaseMap.get_fork r.version_map nid 0 i,
    fun i => BaseMap.get_fork r.deletion_map nid 0 i,
    fun off l r2 ins h => inserted_run_ts_zero _ rfl off l r2 ins h,
    ⟨_, decode_encode_replica r nid h1, rfl, rfl, rfl, rfl,
      fun i => BaseMap.get_fork r.version_map nid 0 i,
      fun i => BaseMap.get_fork r.deletion_map nid 0 i⟩⟩

/-- Witness for C2 at a concrete ready insertion and a backlogged one. -/
theorem claim2_witness :
    (¬ tieP1.2.is_no_op ∧ ¬ tieR2.has_merged_insertion tieP1.2)
    ∧ ((tieR2.version_map.get tieP1.2.inserted_by = tieP1.2.run_start ∧
          tieP1.2.anchor.offset ≤ tieR2.version_map.get tieP1.2.anchor.replica_id →
        tieR2.integrate_insertion tieP1.2 =
          ((tieR2.merge_unchecked_insertion tieP1.2).1,
            some (tieR2.merge_unchecked_insertion tieP1.2).2))
      ∧ (¬ (tieR2.version_map.get tieP1.2.inserted_by = tieP1.2.run_start ∧
            tieP1.2.anchor.offset ≤ tieR2.version_map.get tieP1.2.anchor.replica_id) →
        tieR2.integrate_insertion tieP1.2 =
          ({ tieR2 with backlog := tieR2.backlog.insert_insertion tieP1.2 }, none))
      ∧ ((tieR2.integrate_insertion tieP1.2).2.isSome ↔
          (tieR2.version_map.get tieP1.2.inserted_by = tieP1.2.run_start ∧
            tieP1.2.anchor.offset ≤ tieR2.version_map.get tieP1.2.anchor.replica_id))) :=
  ⟨⟨by decide, by decide⟩, claim2 tieR2 tieP1.2 (by decide) (by decide)⟩

/-- Witness for C3 at a concrete ready deletion. -/
theorem claim3_witness :
    (¬ delOp.is_no_op)
    ∧ ((delR2.deletion_map.get delOp.deleted_by + 1 = delOp.deletion_ts ∧
          (∀ id, delOp.version_map.get id ≤ delR2.version_map.get id) →
        delR2.integrate_deletion delOp = delR2.merge_unchecked_deletion delOp)
      ∧ (delOp.deletion_ts < delR2.deletion_map.get delOp.deleted_by + 1 ↔
          delR2.integrate_deletion delOp = (delR2, []))
      ∧ (¬ delR2.has_merged_deletion delOp → ¬ delR2.can_merge_deletion delOp →
        delR2.integrate_deletion delOp =
          ({ delR2 with backlog := delR2.backlog.insert_deletion delOp }, []))) :=
  ⟨by decide, claim3 delR2 delOp (by decide)⟩

/-- Witness for C5 at a concrete two-replica state. -/
theorem claim5_witness :
    ∃ f d, tieR1.fork 2 = some f
      ∧ Replica.decode 2 (Replica.encode tieR1) = some (Except.ok d)
      ∧ d.eq_decoded f
      ∧ d.lamport_clock = f.lamport_clock
      ∧ d.run_clock = f.run_clock
      ∧ d.version_map = f.version_map
      ∧ d.deletion_map = f.deletion_map :=
  claim5 tieR1 2 (by decide) (by decide)

/-- Witness for C10 at a concrete forked replica. -/
theorem claim10_witness :
    ∃ f, delBase.fork 2 = some f
      ∧ f.id = 2
      ∧ f.run_tree = delBase.run_tree
      ∧ f.backlog = delBase.backlog
      ∧ f.lamport_clock = delBase.lamport_clock
      ∧ f.run_clock = ⟨0⟩
      ∧ (∀ i, f.version_map.get i = if i = 2 then 0 else delBase.version_map.get i)
      ∧ (∀ i, f.deletion_map.get i = if i = 2 then 0 else delBase.deletion_map.get i)
      ∧ (∀ off l r2 ins, f.inserted off l = some (r2, ins) → ins.run_ts = 0)
      ∧ (∃ d, Replica.decode 2 (Replica.encode delBase) = some (Except.ok d)
          ∧ d.run_tree = delBase.run_tree ∧ d.backlog = delBase.backlog
          ∧ d.lamport_clock = delBase.lamport_clock ∧ d.run_clock = ⟨0⟩
          ∧ (∀ i, d.version_map.get i =
              if i = 2 then 0 else delBase.version_map.get i)
          ∧ (∀ i, d.deletion_map.get i =
              if i = 2 then 0 else delBase.deletion_map.get i)) :=
  claim10 delBase 2 (by decide) (by decide)

end Cola

namespace GT

variable {L : Type}

theorem insertInInode_full_split {L : Type} (llen : L → Nat) (arity : Nat)
    (s : Nat) (cs : List (GNode L)) (i : Nat) (child : GNode L) (csum : Nat)
    (heven : arity % 2 = 0) (h2a : 2 ≤ arity)
    (hfull : cs.length = arity) (hi : i ≤ arity) :
    ∃ left rest, insertInInode llen arity s cs i child csum = (left, some rest)
      ∧ rest.2.length = arity / 2 ∧ arity / 2 ≤ left.2.length := by
  unfold insertInInode splitInode inodeSplit inodeInsert
  rw [if_pos hfull]
  by_cases hc : i ≤ arity / 2
  · rw [if_pos hc]
    refine ⟨_, _, rfl, ?_, ?_⟩
    · simp [List.length_drop, hfull]
      omega
    · have htk : (cs.take (cs.length - arity / 2)).length = cs.length - arity / 2 := by
        simp [List.length_take]
      rw [List.length_insertIdx _ _ (by rw [htk, hfull]; omega)]
      rw [htk, hfull]
      omega
  · rw [if_neg hc]
    refine ⟨_, _, rfl, ?_, ?_⟩
    · have hd : (cs.drop (cs.length - arity / 2 + 1)).length
          = arity / 2 - 1 := by
        simp [List.length_drop, hfull]
        omega
      dsimp only
      rw [List.length_insertIdx]
      · rw [hd]
        omega
      · rw [hd]
        simp only [List.length_take]
        omega
    · simp [List.length_take, hfull]
      omega

theorem inodeInsertTwo_length {L : Type} (s : Nat) (cs : List (GNode L))
    (fo : Nat) (fc : GNode L) (fs : Nat) (so : Nat) (sc : GNode L) (ss : Nat)
    (hfo : fo ≤ so) (hso : so ≤ cs.length) :
    (inodeInsertTwo s cs fo fc fs so sc ss).2.length = cs.length + 2 := by
  unfold inodeInsertTwo inodeInsert
  dsimp only
  rw [List.length_insertIdx _ _ (by
    rw [List.length_insertIdx _ _ (by omega)]
    omega)]
  rw [List.length_insertIdx _ _ (by omega)]

theorem insertTwoGo_nonfull {L : Type} (llen : L → Nat) (arity : Nat)
    (fuel s : Nat) (cs : List (GNode L)) (fo : Nat) (fc : GNode L) (fs : Nat)
    (so : Nat) (sc : GNode L) (ss : Nat)
    (hroom : ¬ (arity - cs.length < 2)) (hfo : fo ≤ so) :
    insertTwoInInodeGo llen arity (fuel + 1) s cs fo fc fs so sc ss =
      (inodeInsertTwo s cs fo fc fs so sc ss, none) := by
  unfold insertTwoInInodeGo
  rw [if_neg (by omega : ¬ fo > so)]
  dsimp only
  rw [if_neg hroom]

theorem insertTwoGo_split {L : Type} (llen : L → Nat) (arity : Nat)
    (fuel s : Nat) (cs : List (GNode L)) (fo : Nat) (fc : GNode L) (fs : Nat)
    (so : Nat) (sc : GNode L) (ss : Nat)
    (heven : arity % 2 = 0) (h4 : 4 ≤ arity)
    (hnear : arity - cs.length < 2) (hlen : cs.length ≤ arity)
    (hfo : fo ≤ so) (hso : so ≤ cs.length) :
    ∃ left rest,
      insertTwoInInodeGo llen arity (fuel + 2) s cs fo fc fs so sc ss =
        (left, some rest)
      ∧ rest.2.length = arity / 2 ∧ arity / 2 ≤ left.2.length := by
  have hmc2 : 2 ≤ arity / 2 := by omega
  show ∃ left rest,
    insertTwoInInodeGo llen arity (fuel + 1 + 1) s cs fo fc fs so sc ss =
      (left, some rest) ∧ rest.2.length = arity / 2 ∧ arity / 2 ≤ left.2.length
  unfold insertTwoInInodeGo
  rw [if_neg (by omega : ¬ fo > so)]
  dsimp only
  rw [if_pos hnear]
  by_cases hA : cs.length - so > arity / 2 - 1
  · rw [if_pos hA]
    have htk : (cs.take (cs.length - arity / 2)).length
        = cs.length - arity / 2 := by
      simp [List.length_take]
    rw [insertTwoGo_nonfull llen arity fuel _ _ fo fc fs so sc ss
      (by unfold splitInode inodeSplit; dsimp only; rw [htk]; omega) hfo]
    refine ⟨_, _, rfl, ?_, ?_⟩
    · unfold splitInode inodeSplit
      dsimp only
      simp [List.length_drop]
      omega
    · unfold splitInode inodeSplit
      dsimp only
      rw [inodeInsertTwo_length _ _ _ _ _ _ _ _ hfo (by rw [htk]; omega)]
      rw [htk]
      omega
  · rw [if_neg hA]
    by_cases hB : cs.length - so < arity / 2 - 1 ∧ fo ≥ cs.length - arity / 2 + 2
    · rw [if_pos hB]
      have htk : (cs.take (cs.length - arity / 2 + 2)).length
          = cs.length - arity / 2 + 2 := by
        simp [List.length_take]
        omega
      refine ⟨_, _, rfl, ?_, ?_⟩
      · unfold splitInode inodeSplit
        dsimp only
        rw [htk]
        rw [inodeInsertTwo_length _ _ _ _ _ _ _ _ (by omega) (by
          simp [List.length_drop]
          omega)]
        simp [List.length_drop]
        omega
      · unfold splitInode inodeSplit
        dsimp only
        rw [htk]
        omega
    · rw [if_neg hB]
      have htk : (cs.take (cs.length - arity / 2 + 1)).length
          = cs.length - arity / 2 + 1 := by
        simp [List.length_take]
        omega
      have hso2 : cs.length - arity / 2 + 1 ≤ so := by omega
      refine ⟨_, _, rfl, ?_, ?_⟩
      · unfold splitInode inodeSplit inodeInsert
        dsimp only
        rw [htk]
        rw [List.length_insertIdx _ _ (by
          simp [List.length_drop]
          omega)]
        simp [List.length_drop]
        omega
      · have hfo2 : fo ≤ cs.length - arity / 2 + 1 := by
          by_cases hB2 : cs.length - so < arity / 2 - 1
          · have h3 : ¬ fo ≥ cs.length - arity / 2 + 2 := fun h3 => hB ⟨hB2, h3⟩
            omega
          · omega
        unfold splitInode inodeSplit inodeInsert
        dsimp only
        rw [List.length_insertIdx _ _ (by rw [htk]; omega)]
        rw [htk]
        omega

/-- Claim C6: when a full inode splits during an insertion of one child, the
right sibling gets exactly ARITY / 2 children and the left keeps at least
ARITY / 2; the same holds for an insertion of two children into a
nearly-full inode (and the two-child insertion is symmetric in its two
children); and when the root splits, the new root has exactly the two
halves as children. -/
theorem claim6 {L : Type} (llen : L → Nat) (arity : Nat) (s s2 s3 : Nat)
    (cs ds es : List (GNode L)) (i : Nat) (child : GNode L) (csum : Nat)
    (fo : Nat) (fc : GNode L) (fs : Nat) (so : Nat) (sc : GNode L) (ss : Nat)
    (fo2 : Nat) (fc2 : GNode L) (fs2 : Nat) (so2 : Nat) (sc2 : GNode L)
    (ss2 : Nat) (root sp : GNode L)
    (heven : arity % 2 = 0) (h4 : 4 ≤ arity)
    (hfull : cs.length = arity) (hi : i ≤ arity)
    (hnear : arity - ds.length < 2) (hlen2 : ds.length ≤ arity)
    (hfo : fo ≤ so) (hso : so ≤ ds.length)
    (hswap : so2 < fo2) :
    (∃ left rest, insertInInode llen arity s cs i child csum = (left, some rest)
      ∧ rest.2.length = arity / 2 ∧ arity / 2 ≤ left.2.length)
    ∧ (∃ left rest,
        insertTwoInInode llen arity s2 ds fo fc fs so sc ss = (left, some rest)
        ∧ rest.2.length = arity / 2 ∧ arity / 2 ≤ left.2.length)
    ∧ insertTwoInInode llen arity s3 es fo2 fc2 fs2 so2 sc2 ss2 =
        insertTwoInInode llen arity s3 es so2 sc2 ss2 fo2 fc2 fs2
    ∧ childrenOf (rootHasSplit llen root sp) = [root, sp] := by
  refine ⟨?_, ?_, ?_, rfl⟩
  · exact insertInInode_full_split llen arity s cs i child csum heven
      (by omega) hfull hi
  · unfold insertTwoInInode
    have hfuel : ds.length + 1 = (ds.length - 1) + 2 := by omega
    rw [hfuel]
    exact insertTwoGo_split llen arity (ds.length - 1) s2 ds fo fc fs so sc ss
      heven h4 hnear hlen2 hfo hso
  · unfold insertTwoInInode
    have hfuel : es.length + 1 = es.length + 1 := rfl
    conv_lhs => unfold insertTwoInInodeGo
    conv_rhs => unfold insertTwoInInodeGo
    rw [if_pos hswap, if_neg (by omega : ¬ so2 > fo2)]

/-- Witness for C6 at a concrete full 4-ary inode. -/
theorem claim6_witness :
    (∃ left rest,
        insertInInode (fun (n : Nat) => n) 4 10 c6cs 2 (.leafN 9) 9 =
          (left, some rest)
        ∧ rest.2.length = 4 / 2 ∧ 4 / 2 ≤ left.2.length)
    ∧ (∃ left rest,
        insertTwoInInode (fun (n : Nat) => n) 4 10 c6cs 1 (.leafN 8) 8 2
          (.leafN 9) 9 = (left, some rest)
        ∧ rest.2.length = 4 / 2 ∧ 4 / 2 ≤ left.2.length)
    ∧ insertTwoInInode (fun (n : Nat) => n) 4 10 c6cs 3 (.leafN 8) 8 1
        (.leafN 9) 9 =
      insertTwoInInode (fun (n : Nat) => n) 4 10 c6cs 1 (.leafN 9) 9 3
        (.leafN 8) 8
    ∧ childrenOf (rootHasSplit (fun (n : Nat) => n) (.leafN 1) (.leafN 2)) =
        [.leafN 1, .leafN 2] :=
  claim6 (fun (n : Nat) => n) 4 10 10 10 c6cs c6cs c6cs 2 (.leafN 9) 9
    1 (.leafN 8) 8 2 (.leafN 9) 9 3 (.leafN 8) 8 1 (.leafN 9) 9
    (.leafN 1) (.leafN 2)
    (by decide) (by decide) (by decide) (by decide) (by decide) (by decide)
    (by decide) (by decide) (by decide)

theorem sumL_append (llen : L → Nat) (xs ys : List L) :
    sumL llen (xs ++ ys) = sumL llen xs + sumL llen ys := by
  simp [sumL]

theorem leavesList_append (xs ys : List (GNode L)) :
    leavesList (xs ++ ys) = leavesList xs ++ leavesList ys := by
  induction xs with
  | nil => simp [leavesList]
  | cons c cs ih => simp [leavesList, ih]

theorem validList_forall (llen : L → Nat) (cs : List (GNode L)) :
    validList llen cs = true ↔ ∀ c ∈ cs, validB llen c = true := by
  induction cs with
  | nil => simp [validList]
  | cons c cs ih =>
    simp [validList, Bool.and_eq_true, ih]

mutual
theorem nodeSummary_valid (llen : L → Nat) (n : GNode L)
    (hv : validB llen n = true) :
    nodeSummary llen n = sumL llen (leavesOf n) := by
  match n with
  | .leafN v => simp [nodeSummary, leavesOf, sumL]
  | .inode s cs =>
    simp only [validB, Bool.and_eq_true, beq_iff_eq] at hv
    simp only [nodeSummary, leavesOf]
    rw [hv.1]
    exact sumNS_valid llen cs hv.2
theorem sumNS_valid (llen : L → Nat) (cs : List (GNode L))
    (hv : validList llen cs = true) :
    sumNS llen cs = sumL llen (leavesList cs) := by
  match cs with
  | [] => simp [sumNS, leavesList, sumL]
  | c :: cs2 =>
    simp only [validList, Bool.and_eq_true] at hv
    simp only [sumNS, List.map_cons, List.sum_cons, leavesList]
    rw [sumL_append]
    rw [← nodeSummary_valid llen c hv.1, ← sumNS_valid llen cs2 hv.2]
    rfl
end

theorem sumNS_cons (llen : L → Nat) (c : GNode L) (cs : List (GNode L)) :
    sumNS llen (c :: cs) = nodeSummary llen c + sumNS llen cs := by
  simp [sumNS]

theorem childAtOffset_spec (llen : L → Nat) (cs : List (GNode L)) (t : Nat)
    (h1 : 0 < t) (h2 : t ≤ sumNS llen cs) :
    ∃ i c, childAtOffset llen cs t = some (i, sumNS llen (cs.take i))
      ∧ cs[i]? = some c
      ∧ sumNS llen (cs.take i) < t
      ∧ t ≤ sumNS llen (cs.take i) + nodeSummary llen c := by
  induction cs generalizing t with
  | nil =>
    simp [sumNS] at h2
    omega
  | cons c cs ih =>
    by_cases hm : nodeSummary llen c ≥ t
    · refine ⟨0, c, ?_, by simp, ?_, ?_⟩
      · simp [childAtOffset, hm, sumNS]
      · simp [sumNS]
        omega
      · simp [sumNS]
        omega
    · have hrec := ih (t - nodeSummary llen c) (by omega)
        (by rw [sumNS_cons] at h2; omega)
      obtain ⟨i, c2, heq, hget, hlt, hle⟩ := hrec
      refine ⟨i + 1, c2, ?_, ?_, ?_, ?_⟩
      · simp only [childAtOffset, heq]
        rw [if_neg hm]
        simp [List.take_succ_cons, sumNS_cons]
      · simpa using hget
      · simp [List.take_succ_cons, sumNS_cons]
        omega
      · simp [List.take_succ_cons, sumNS_cons]
        omega

theorem list_decomp {α : Type} (cs : List α) (i : Nat) (c : α)
    (h : cs[i]? = some c) :
    cs = cs.take i ++ c :: cs.drop (i + 1) := by
  induction cs generalizing i with
  | nil => simp at h
  | cons d ds ih =>
    match i with
    | 0 =>
      simp at h
      simp [h]
    | j + 1 =>
      simp only [List.getElem?_cons_succ] at h
      simp only [List.take_succ_cons, List.drop_succ_cons, List.cons_append,
        List.cons.injEq, true_and]
      exact ih j h

theorem set_decomp {α : Type} (cs : List α) (i : Nat) (c c2 : α)
    (h : cs[i]? = some c) :
    cs.set i c2 = cs.take i ++ c2 :: cs.drop (i + 1) := by
  induction cs generalizing i with
  | nil => simp at h
  | cons d ds ih =>
    match i with
    | 0 => simp
    | j + 1 =>
      simp only [List.getElem?_cons_succ] at h
      simp only [List.set_cons_succ, List.take_succ_cons, List.drop_succ_cons,
        List.cons_append, List.cons.injEq, true_and]
      exact ih j h

theorem leavesList_decomp (cs : List (GNode L)) (i : Nat) (c : GNode L)
    (h : cs[i]? = some c) :
    leavesList cs =
      leavesList (cs.take i) ++ leavesOf c ++ leavesList (cs.drop (i + 1)) := by
  conv_lhs => rw [list_decomp cs i c h]
  rw [leavesList_append]
  simp [leavesList]

theorem prefL_add (llen : L → Nat) (xs ys : List L) (p : Nat) :
    prefL llen (xs ++ ys) (xs.length + p) = sumL llen xs + prefL llen ys p := by
  unfold prefL
  rw [List.take_append]
  exact sumL_append llen xs (ys.take p)

theorem prefL_succ (llen : L → Nat) (xs : List L) (p : Nat) (v : L)
    (h : xs[p]? = some v) :
    prefL llen xs (p + 1) = prefL llen xs p + llen v := by
  induction xs generalizing p with
  | nil => simp at h
  | cons w ws ih =>
    match p with
    | 0 =>
      simp at h
      simp [prefL, sumL, h]
    | q + 1 =>
      simp only [List.getElem?_cons_succ] at h
      have := ih q h
      simp only [prefL, sumL, List.take_succ_cons, List.map_cons,
        List.sum_cons] at *
      omega

theorem prefL_mono (llen : L → Nat) (xs : List L) (p q : Nat) (h : p ≤ q) :
    prefL llen xs p ≤ prefL llen xs q := by
  induction xs generalizing p q with
  | nil => simp [prefL, sumL]
  | cons w ws ih =>
    match p, q with
    | 0, q => simp [prefL, sumL]
    | p + 1, q + 1 =>
      have := ih p q (by omega)
      simp only [prefL, sumL, List.take_succ_cons, List.map_cons,
        List.sum_cons] at *
      omega

theorem prefL_le_sum (llen : L → Nat) (xs : List L) (p : Nat) :
    prefL llen xs p ≤ sumL llen xs := by
  induction xs generalizing p with
  | nil => simp [prefL, sumL]
  | cons w ws ih =>
    match p with
    | 0 => simp [prefL, sumL]
    | q + 1 =>
      have := ih q
      simp only [prefL, sumL, List.take_succ_cons, List.map_cons,
        List.sum_cons] at *
      omega

theorem elem_le_sum (llen : L → Nat) (xs : List L) (p : Nat) (v : L)
    (h : xs[p]? = some v) :
    prefL llen xs p + llen v ≤ sumL llen xs := by
  have h1 := prefL_succ llen xs p v h
  have h2 := prefL_le_sum llen xs (p + 1)
  omega

theorem prefL_zero (llen : L → Nat) (xs : List L) : prefL llen xs 0 = 0 := by
  simp [prefL, sumL]

theorem prefL_append_left (llen : L → Nat) (A D : List L) (p : Nat)
    (h : p ≤ A.length) :
    prefL llen (A ++ D) p = prefL llen A p := by
  unfold prefL
  rw [List.take_append_of_le_length h]

theorem window_split (llen : L → Nat) (A B C : List L) (t p : Nat) (lv : L)
    (hp : (A ++ B ++ C)[p]? = some lv)
    (h1 : prefL llen (A ++ B ++ C) p < t)
    (h2 : t ≤ prefL llen (A ++ B ++ C) p + llen lv)
    (hA : sumL llen A < t)
    (hB : t ≤ sumL llen A + sumL llen B) :
    A.length ≤ p ∧ p - A.length < B.length
      ∧ B[p - A.length]? = some lv
      ∧ prefL llen (A ++ B ++ C) p = sumL llen A + prefL llen B (p - A.length) := by
  have hassoc : A ++ B ++ C = A ++ (B ++ C) := List.append_assoc A B C
  have hAp : A.length ≤ p := by
    by_contra hlt
    push_neg at hlt
    have hs := prefL_succ llen (A ++ B ++ C) p lv hp
    have hm : prefL llen (A ++ B ++ C) (p + 1)
        ≤ prefL llen (A ++ B ++ C) A.length :=
      prefL_mono llen _ (p + 1) A.length (by omega)
    have hal : prefL llen (A ++ B ++ C) A.length = sumL llen A := by
      rw [hassoc]
      have := prefL_add llen A (B ++ C) 0
      simpa [prefL_zero] using this
    omega
  have hup : p < A.length + B.length := by
    by_contra hge
    push_neg at hge
    have hm : prefL llen (A ++ B ++ C) (A.length + B.length)
        ≤ prefL llen (A ++ B ++ C) p :=
      prefL_mono llen _ (A.length + B.length) p hge
    have hal : prefL llen (A ++ B ++ C) (A.length + B.length)
        = sumL llen A + sumL llen B := by
      rw [hassoc, prefL_add]
      have : prefL llen (B ++ C) B.length = sumL llen B := by
        unfold prefL
        rw [List.take_append_of_le_length (le_refl _), List.take_length]
      omega
    omega
  refine ⟨hAp, by omega, ?_, ?_⟩
  · rw [hassoc] at hp
    rw [List.getElem?_append_right hAp] at hp
    rwa [List.getElem?_append_left (by omega)] at hp
  · obtain ⟨p2, hp2⟩ : ∃ p2, p = A.length + p2 := ⟨p - A.length, by omega⟩
    subst hp2
    rw [hassoc, prefL_add]
    have h3 : A.length + p2 - A.length = p2 := by omega
    rw [h3]
    have h4 : prefL llen (B ++ C) p2 = prefL llen B p2 :=
      prefL_append_left llen B C _ (by omega)
    omega

theorem countLeavesList_cons (c : GNode L) (cs : List (GNode L)) :
    countLeavesList (c :: cs) = countLeaves c + countLeavesList cs := by
  simp [countLeavesList, countLeaves, leavesList]

theorem patchList_set (llen : L → Nat) (cs : List (GNode L)) (i : Nat)
    (c : GNode L) (pp : Nat) (nv : L)
    (hc : cs[i]? = some c) (hp : pp < countLeaves c) :
    patchList llen cs (countLeavesList (cs.take i) + pp) nv
      = cs.set i (patchLeafAt llen c pp nv) := by
  induction cs generalizing i with
  | nil => simp at hc
  | cons d ds ih =>
    match i with
    | 0 =>
      simp only [List.getElem?_cons_zero, Option.some.injEq] at hc
      subst hc
      have h0 : countLeavesList (List.take 0 (d :: ds)) = 0 := by
        simp [countLeavesList, leavesList]
      rw [h0, Nat.zero_add]
      simp only [patchList, List.set_cons_zero, if_pos hp]
    | j + 1 =>
      simp only [List.getElem?_cons_succ] at hc
      have hct : countLeavesList (List.take (j + 1) (d :: ds))
          = countLeaves d + countLeavesList (ds.take j) := by
        simp only [List.take_succ_cons]
        exact countLeavesList_cons d (ds.take j)
      rw [hct]
      have hbig : ¬ (countLeaves d + countLeavesList (ds.take j) + pp
          < countLeaves d) := by omega
      simp only [patchList, List.set_cons_succ, if_neg hbig]
      have harg : countLeaves d + countLeavesList (ds.take j) + pp
          - countLeaves d = countLeavesList (ds.take j) + pp := by omega
      rw [harg, ih j hc]

theorem validList_take (llen : L → Nat) (cs : List (GNode L)) (i : Nat)
    (hv : validList llen cs = true) : validList llen (cs.take i) = true := by
  rw [validList_forall]
  intro d hd
  exact (validList_forall llen cs).mp hv d (List.mem_of_mem_take hd)

/-- Mirrors `insert_at_offset` on a valid subtree, when the insertion lands strictly
inside leaf `p`'s window and the closure produces no new leaf: the result is
the tree with leaf `p` patched (summaries updated on the path), no split, no
new handles, and the cache set to leaf `p` and its start offset. -/
theorem insAux_nosplit (llen : L → Nat) (arity : Nat)
    (f : L → Nat → L × Option L × Option L)
    (s : Nat) (cs : List (GNode L)) (leafOff leafPos atOff p : Nat)
    (lv lv2 : L) (n2 : Option L)
    (hv : validB llen (GNode.inode s cs) = true)
    (hp : (leavesList cs)[p]? = some lv)
    (h1 : leafOff + prefL llen (leavesList cs) p < atOff)
    (h2 : atOff ≤ leafOff + prefL llen (leavesList cs) p + llen lv)
    (hf : f lv (atOff - (leafOff + prefL llen (leavesList cs) p))
        = (lv2, none, n2)) :
    insAux llen arity f (GNode.inode s cs) leafOff leafPos atOff =
      ⟨patchLeafAt llen (GNode.inode s cs) p lv2, none, none, none,
        some (leafPos + p, leafOff + prefL llen (leavesList cs) p)⟩ := by
  have hv2 := hv
  simp only [validB, Bool.and_eq_true, beq_iff_eq] at hv2
  obtain ⟨hs, hvl⟩ := hv2
  have hsum : sumNS llen cs = sumL llen (leavesList cs) := sumNS_valid llen cs hvl
  have hptot := elem_le_sum llen (leavesList cs) p lv hp
  have hpl := prefL_le_sum llen (leavesList cs) p
  have h0 : 0 < atOff - leafOff := by omega
  have hts : atOff - leafOff ≤ sumNS llen cs := by omega
  obtain ⟨i, c, heq, hc, hlo, hhi⟩ := childAtOffset_spec llen cs (atOff - leafOff) h0 hts
  have hvc : validB llen c = true :=
    (validList_forall llen cs).mp hvl c (List.getElem?_mem hc)
  have hAsum : sumNS llen (cs.take i) = sumL llen (leavesList (cs.take i)) :=
    sumNS_valid llen _ (validList_take llen cs i hvl)
  have hBsum : nodeSummary llen c = sumL llen (leavesOf c) :=
    nodeSummary_valid llen c hvc
  have hdec := leavesList_decomp cs i c hc
  rw [hdec] at hp h1 h2 hf hptot hpl ⊢
  obtain ⟨hgeA, hplt, hpb, hpre⟩ :=
    window_split llen (leavesList (cs.take i)) (leavesOf c)
      (leavesList (cs.drop (i + 1))) (atOff - leafOff) p lv hp
      (by omega) (by omega) (by omega) (by omega)
  obtain ⟨p2, hp2eq⟩ : ∃ p2, p = (leavesList (cs.take i)).length + p2 :=
    ⟨p - (leavesList (cs.take i)).length, by omega⟩
  subst hp2eq
  have hsub : (leavesList (cs.take i)).length + p2
      - (leavesList (cs.take i)).length = p2 := by omega
  rw [hsub] at hplt hpb hpre
  rw [insAux, heq]
  split
  · rename_i h3
    simp at h3
  · rename_i i2 off2 h3
    injection h3 with h3
    injection h3 with hi ho
    subst hi
    subst ho
    split
    · rename_i h4
      rw [hc] at h4
      cases h4
    · rename_i child h4
      rw [hc] at h4
      injection h4 with h4
      subst h4
      cases c with
      | leafN lv0 =>
        have hB1 : (leavesOf (GNode.leafN lv0)).length = 1 := by
          simp [leavesOf]
        have hp20 : p2 = 0 := by omega
        subst hp20
        have hlv : lv0 = lv := by
          simp [leavesOf] at hpb
          exact hpb
        subst hlv
        have hpre0 : prefL llen (leavesOf (GNode.leafN lv0)) 0 = 0 :=
          prefL_zero llen _
        rw [hpre0] at hpre
        have harg : atOff - (leafOff + sumNS llen (List.take i cs))
            = atOff - (leafOff + prefL llen
              (leavesList (List.take i cs) ++ leavesOf (GNode.leafN lv0)
                ++ leavesList (List.drop (i + 1) cs))
              ((leavesList (List.take i cs)).length + 0)) := by
          rw [hpre]
          omega
        dsimp only
        rw [harg, hf]
        dsimp only
        have hne : ¬ atOff = 0 := by omega
        rw [if_neg hne]
        rw [patchLeafAt]
        rw [hdec]
        rw [hp]
        have hps := patchList_set llen cs i (GNode.leafN lv0) 0 lv2 hc
          (by simp [countLeaves, leavesOf])
        have hps2 : patchList llen cs ((leavesList (List.take i cs)).length + 0)
            lv2 = cs.set i (GNode.leafN lv2) := by
          have : patchLeafAt llen (GNode.leafN lv0) 0 lv2 = GNode.leafN lv2 := by
            simp [patchLeafAt]
          rw [← this]
          exact hps
        rw [hps2]
        dsimp only
        have hcl : countLeavesList (List.take i cs)
            = (leavesList (List.take i cs)).length := rfl
        rw [hpre, hcl, hAsum]
        simp
      | inode s0 cs0 =>
        have hvci := hvc
        simp only [validB, Bool.and_eq_true, beq_iff_eq] at hvci
        obtain ⟨hs0, hvl0⟩ := hvci
        have hbr : prefL llen (leavesList cs0) p2
            = prefL llen (leavesOf (GNode.inode s0 cs0)) p2 := rfl
        have h1c := h1
        rw [hpre] at h1c
        have h2c := h2
        rw [hpre] at h2c
        have hh1 : leafOff + sumNS llen (List.take i cs)
            + prefL llen (leavesList cs0) p2 < atOff := by
          rw [hbr]
          omega
        have hh2 : atOff ≤ leafOff + sumNS llen (List.take i cs)
            + prefL llen (leavesList cs0) p2 + llen lv := by
          rw [hbr]
          omega
        have hhf : f lv (atOff - (leafOff + sumNS llen (List.take i cs)
            + prefL llen (leavesList cs0) p2)) = (lv2, none, n2) := by
          have hargx : atOff - (leafOff + sumNS llen (List.take i cs)
              + prefL llen (leavesList cs0) p2)
              = atOff - (leafOff + prefL llen
                (leavesList (List.take i cs) ++ leavesOf (GNode.inode s0 cs0)
                  ++ leavesList (List.drop (i + 1) cs))
                ((leavesList (List.take i cs)).length + p2)) := by
            rw [hpre, hbr]
            omega
          rw [hargx]
          exact hf
        have hrec := insAux_nosplit llen arity f s0 cs0
          (leafOff + sumNS llen (List.take i cs))
          (leafPos + countLeavesList (List.take i cs)) atOff p2 lv lv2 n2
          hvc hpb hh1 hh2 hhf
        have hpb2 : (leavesList cs0)[p2]? = some lv := hpb
        dsimp only
        rw [hrec]
        dsimp only
        rw [patchLeafAt, hpb2]
        dsimp only
        rw [patchLeafAt]
        rw [hdec]
        rw [hp]
        dsimp only
        have hlvle : prefL llen (leavesList cs0) p2 + llen lv
            ≤ sumL llen (leavesList cs0) :=
          elem_le_sum llen (leavesList cs0) p2 lv hpb
        have hs0sum : s0 = sumL llen (leavesList cs0) := by
          rw [hs0]
          exact sumNS_valid llen cs0 hvl0
        have hps := patchList_set llen cs i (GNode.inode s0 cs0) p2 lv2 hc hplt
        have hps2 : patchList llen cs ((leavesList (List.take i cs)).length + p2)
            lv2 = cs.set i (patchLeafAt llen (GNode.inode s0 cs0) p2 lv2) := hps
        rw [hps2]
        rw [patchLeafAt, hpb2]
        dsimp only
        have hee : sumL llen (leavesOf (GNode.inode s0 cs0))
            = sumL llen (leavesList cs0) := rfl
        have hee2 : prefL llen (leavesOf (GNode.inode s0 cs0)) p2
            = prefL llen (leavesList cs0) p2 := rfl
        have hx1 : llen lv ≤ s0 := by omega
        have hx2 : s0 ≤ s := by
          rw [hdec] at hsum
          have ha1 := sumL_append llen
            (leavesList (List.take i cs) ++ leavesOf (GNode.inode s0 cs0))
            (leavesList (List.drop (i + 1) cs))
          have ha2 := sumL_append llen (leavesList (List.take i cs))
            (leavesOf (GNode.inode s0 cs0))
          omega
        have hcl : countLeavesList (List.take i cs)
            = (leavesList (List.take i cs)).length := rfl
        simp only [InsResult.mk.injEq, GNode.inode.injEq, Option.some.injEq,
          Prod.mk.injEq, nodeSummary, true_and, and_true]
        refine ⟨by omega, by rw [hcl]; omega, ?_⟩
        rw [hbr, hpre]
        omega
termination_by sizeOf cs
decreasing_by
  have hm := List.sizeOf_lt_of_mem (List.getElem?_mem hc)
  simp only [GNode.inode.sizeOf_spec] at hm ⊢
  omega

/-- Mirrors `insert_at_offset` run with two closures that agree on the leaf the
descent reaches (at the reached offset) produces identical results. -/
theorem insAux_congr (llen : L → Nat) (arity : Nat)
    (f g : L → Nat → L × Option L × Option L)
    (s : Nat) (cs : List (GNode L)) (leafOff leafPos atOff p : Nat) (lv : L)
    (hv : validB llen (GNode.inode s cs) = true)
    (hp : (leavesList cs)[p]? = some lv)
    (h1 : leafOff + prefL llen (leavesList cs) p < atOff)
    (h2 : atOff ≤ leafOff + prefL llen (leavesList cs) p + llen lv)
    (hfg : f lv (atOff - (leafOff + prefL llen (leavesList cs) p))
        = g lv (atOff - (leafOff + prefL llen (leavesList cs) p))) :
    insAux llen arity f (GNode.inode s cs) leafOff leafPos atOff =
    insAux llen arity g (GNode.inode s cs) leafOff leafPos atOff := by
  have hv2 := hv
  simp only [validB, Bool.and_eq_true, beq_iff_eq] at hv2
  obtain ⟨hs, hvl⟩ := hv2
  have hsum : sumNS llen cs = sumL llen (leavesList cs) := sumNS_valid llen cs hvl
  have hptot := elem_le_sum llen (leavesList cs) p lv hp
  have hpl := prefL_le_sum llen (leavesList cs) p
  have h0 : 0 < atOff - leafOff := by omega
  have hts : atOff - leafOff ≤ sumNS llen cs := by omega
  obtain ⟨i, c, heq, hc, hlo, hhi⟩ := childAtOffset_spec llen cs (atOff - leafOff) h0 hts
  have hvc : validB llen c = true :=
    (validList_forall llen cs).mp hvl c (List.getElem?_mem hc)
  have hAsum : sumNS llen (cs.take i) = sumL llen (leavesList (cs.take i)) :=
    sumNS_valid llen _ (validList_take llen cs i hvl)
  have hBsum : nodeSummary llen c = sumL llen (leavesOf c) :=
    nodeSummary_valid llen c hvc
  have hdec := leavesList_decomp cs i c hc
  rw [hdec] at hp h1 h2 hfg hptot hpl
  obtain ⟨hgeA, hplt, hpb, hpre⟩ :=
    window_split llen (leavesList (cs.take i)) (leavesOf c)
      (leavesList (cs.drop (i + 1))) (atOff - leafOff) p lv hp
      (by omega) (by omega) (by omega) (by omega)
  obtain ⟨p2, hp2eq⟩ : ∃ p2, p = (leavesList (cs.take i)).length + p2 :=
    ⟨p - (leavesList (cs.take i)).length, by omega⟩
  subst hp2eq
  have hsub : (leavesList (cs.take i)).length + p2
      - (leavesList (cs.take i)).length = p2 := by omega
  rw [hsub] at hplt hpb hpre
  rw [insAux, insAux, heq]
  split
  · rename_i h3
    simp at h3
  · rename_i i2 off2 h3
    injection h3 with h3
    injection h3 with hi ho
    subst hi
    subst ho
    split
    · rfl
    · rename_i child h4
      rw [hc] at h4
      injection h4 with h4
      subst h4
      cases c with
      | leafN lv0 =>
        have hB1 : (leavesOf (GNode.leafN lv0)).length = 1 := by
          simp [leavesOf]
        have hp20 : p2 = 0 := by omega
        subst hp20
        have hlv : lv0 = lv := by
          simp [leavesOf] at hpb
          exact hpb
        subst hlv
        have hpre0 : prefL llen (leavesOf (GNode.leafN lv0)) 0 = 0 :=
          prefL_zero llen _
        rw [hpre0] at hpre
        have harg : atOff - (leafOff + sumNS llen (List.take i cs))
            = atOff - (leafOff + prefL llen
              (leavesList (List.take i cs) ++ leavesOf (GNode.leafN lv0)
                ++ leavesList (List.drop (i + 1) cs))
              ((leavesList (List.take i cs)).length + 0)) := by
          rw [hpre]
          omega
        dsimp only
        rw [harg, hfg]
      | inode s0 cs0 =>
        have hbr : prefL llen (leavesList cs0) p2
            = prefL llen (leavesOf (GNode.inode s0 cs0)) p2 := rfl
        have h1c := h1
        rw [hpre] at h1c
        have h2c := h2
        rw [hpre] at h2c
        have hh1 : leafOff + sumNS llen (List.take i cs)
            + prefL llen (leavesList cs0) p2 < atOff := by
          rw [hbr]
          omega
        have hh2 : atOff ≤ leafOff + sumNS llen (List.take i cs)
            + prefL llen (leavesList cs0) p2 + llen lv := by
          rw [hbr]
          omega
        have hhfg : f lv (atOff - (leafOff + sumNS llen (List.take i cs)
            + prefL llen (leavesList cs0) p2))
            = g lv (atOff - (leafOff + sumNS llen (List.take i cs)
              + prefL llen (leavesList cs0) p2)) := by
          have hargx : atOff - (leafOff + sumNS llen (List.take i cs)
              + prefL llen (leavesList cs0) p2)
              = atOff - (leafOff + prefL llen
                (leavesList (List.take i cs) ++ leavesOf (GNode.inode s0 cs0)
                  ++ leavesList (List.drop (i + 1) cs))
                ((leavesList (List.take i cs)).length + p2)) := by
            rw [hpre, hbr]
            omega
          rw [hargx]
          exact hfg
        have hpb2 : (leavesList cs0)[p2]? = some lv := hpb
        have hrec := insAux_congr llen arity f g s0 cs0
          (leafOff + sumNS llen (List.take i cs))
          (leafPos + countLeavesList (List.take i cs)) atOff p2 lv
          hvc hpb2 hh1 hh2 hhfg
        dsimp only
        rw [hrec]
termination_by sizeOf cs
decreasing_by
  have hm := List.sizeOf_lt_of_mem (List.getElem?_mem hc)
  simp only [GNode.inode.sizeOf_spec] at hm ⊢
  omega

/-- The cached insertion path agrees with the from-the-root descent whenever
the cache points at an existing leaf with its true start offset and the
offset satisfies the cache-hit window. -/
theorem insert_cached_eq {L : Type} (llen : L → Nat) (arity : Nat)
    (t : GtreeM L) (s : Nat) (cs : List (GNode L)) (pos leafOffS offset : Nat)
    (f : L → Nat → L × Option L × Option L) (lv : L)
    (hroot : t.root = GNode.inode s cs)
    (hv : validB llen t.root = true)
    (hcache : t.last_insertion_cache = some (pos, leafOffS))
    (hlv : (leavesOf t.root)[pos]? = some lv)
    (hoffv : leafOffS = prefL llen (leavesOf t.root) pos)
    (hlo : leafOffS < offset)
    (hhi : offset ≤ leafOffS + llen lv) :
    GtreeM.insert llen arity t offset f = insertAtOffsetT llen arity t offset f := by
  obtain ⟨root, cache⟩ := t
  dsimp only at hroot hcache hlv hoffv hv ⊢
  subst hroot
  subst hcache
  have hpl2 : prefL llen (leavesList cs) pos = leafOffS := hoffv.symm
  have hlv2 : (leavesList cs)[pos]? = some lv := hlv
  rw [GtreeM.insert]
  dsimp only
  rw [hlv]
  dsimp only
  have hcond : leafOffS < offset ∧ offset ≤ leafOffS + llen lv := ⟨hlo, hhi⟩
  rw [if_pos hcond]
  rw [insertAtLeafT]
  dsimp only
  rw [hlv]
  dsimp only
  rcases hfv : f lv (offset - leafOffS) with ⟨lv2, n1, n2⟩
  dsimp only
  cases n1 with
  | none =>
    dsimp only [Option.isSome]
    have hcondf : ¬ (false = true) := by simp
    rw [if_neg hcondf]
    have harg : offset - leafOffS
        = offset - (0 + prefL llen (leavesList cs) pos) := by
      rw [hpl2]
      omega
    rw [harg] at hfv
    have hins := insAux_nosplit llen arity f s cs 0 0 offset pos lv lv2 n2
      hv hlv2 (by omega) (by omega) hfv
    rw [insertAtOffsetT]
    dsimp only
    rw [hins]
    dsimp only
    simp only [Nat.zero_add]
    rw [hpl2]
  | some a =>
    dsimp only [Option.isSome]
    rw [if_pos rfl]
    rw [insertAtOffsetT, insertAtOffsetT]
    dsimp only
    have harg : offset - leafOffS
        = offset - (0 + prefL llen (leavesList cs) pos) := by
      rw [hpl2]
      omega
    rw [harg] at hfv
    have hcong := insAux_congr llen arity
      (fun _ _ => (lv2, some a, n2)) f s cs 0 0 offset pos lv
      hv hlv2 (by omega) (by omega) (by rw [hfv])
    rw [hcong]

/-- Mirrors `delete_range` unconditionally clears the one-slot insertion cache. -/
theorem deleteRange_cache {L : Type} (llen : L → Nat) (arity : Nat)
    (ldel : L → L) (t : GtreeM L) (rs re : Nat)
    (fr : L → Nat → Nat → L × Option L × Option L)
    (ff fu : L → Nat → L × Option L) :
    (GtreeM.deleteRange llen arity ldel t rs re fr ff fu).1.last_insertion_cache
      = none := by
  rw [GtreeM.deleteRange]

/-- Claim C9: `Gtree::insert` returns the same result and leaves the tree in
the same observable state whether the one-slot last-insertion cache is hit or
the tree is descended from the root: for every offset satisfying the
cache-hit condition (with the cache pointing at an existing leaf at its true
start offset, in a tree whose summaries are consistent) the cached path
`insert_at_leaf` equals the uncached path `insert_at_offset`; and
`delete_range` always invalidates the cache. -/
theorem claim9 :
    (∀ (L : Type) (llen : L → Nat) (arity : Nat) (t : GtreeM L) (s : Nat)
        (cs : List (GNode L)) (pos leafOffS offset : Nat)
        (f : L → Nat → L × Option L × Option L) (lv : L),
      t.root = GNode.inode s cs →
      validB llen t.root = true →
      t.last_insertion_cache = some (pos, leafOffS) →
      (leavesOf t.root)[pos]? = some lv →
      leafOffS = prefL llen (leavesOf t.root) pos →
      leafOffS < offset →
      offset ≤ leafOffS + llen lv →
      GtreeM.insert llen arity t offset f
        = insertAtOffsetT llen arity t offset f)
    ∧ (∀ (L : Type) (llen : L → Nat) (arity : Nat) (ldel : L → L)
        (t : GtreeM L) (rs re : Nat)
        (fr : L → Nat → Nat → L × Option L × Option L)
        (ff fu : L → Nat → L × Option L),
      (GtreeM.deleteRange llen arity ldel t rs re fr ff
        fu).1.last_insertion_cache = none) :=
  ⟨fun _ llen arity t s cs pos leafOffS offset f lv h1 h2 h3 h4 h5 h6 h7 =>
      insert_cached_eq llen arity t s cs pos leafOffS offset f lv
        h1 h2 h3 h4 h5 h6 h7,
    fun _ llen arity ldel t rs re fr ff fu =>
      deleteRange_cache llen arity ldel t rs re fr ff fu⟩

/-- Witness for C9 at a concrete two-leaf tree with a valid hot cache. -/
theorem claim9_witness :
    (GtreeM.insert (fun v : Nat => v) 4
        ⟨GNode.inode 4 [GNode.leafN 2, GNode.leafN 2], some (1, 2)⟩ 3
        (fun v _ => (v + 1, none, none))
      = insertAtOffsetT (fun v : Nat => v) 4
        ⟨GNode.inode 4 [GNode.leafN 2, GNode.leafN 2], some (1, 2)⟩ 3
        (fun v _ => (v + 1, none, none)))
    ∧ (GtreeM.deleteRange (fun v : Nat => v) 4 (fun _ => 0)
        ⟨GNode.inode 4 [GNode.leafN 2, GNode.leafN 2], some (1, 2)⟩ 1 3
        (fun v _ _ => (v, none, none)) (fun v _ => (v, none))
        (fun v _ => (v, none))).1.last_insertion_cache = none :=
  ⟨claim9.1 Nat (fun v => v) 4 _ 4 [GNode.leafN 2, GNode.leafN 2] 1 2 3 _ 2
      rfl (by decide) rfl (by decide) (by decide) (by decide) (by decide),
    claim9.2 Nat (fun v => v) 4 (fun _ => 0) _ 1 3 _ _ _⟩

end GT
